import Mathlib

/-!
Verification development for the Evolver class-group streaming engine.

This file gives a shallow embedding, in Lean 4, of the core of the Rust
sources (Phase 3): the class-group arithmetic of `core/algebra.rs`, the
affine operator algebra of `core/affine.rs`, the time-segment trees and
hyper-tensor folding of `topology/tensor.rs` and `topology/folding.rs`,
the Merkle / state-transition proofs of `net/wire.rs`, the parameter
generation of `core/param.rs` and the hash-to-prime mapper of
`core/primes.rs`, together with theorems settling the frozen claims
C1..C10 about those components.

Modelling conventions:
* rug `Integer` is embedded as `Int`; its truncated division `/`,
  `div_rem` and `rem` are `Int.tdiv` / `Int.tmod`, its floor-division
  `div_floor` and arithmetic shift `>> 1` are `Int.fdiv`, and its
  Euclidean remainder `rem_euc` is `Int.emod`.
* Loops whose iteration count the source bounds by a constant
  (the reduction loop, the parameter-generation attempt loop, the
  hash-to-prime nonce loop) are embedded with that same constant as
  structural fuel, erroring exactly where the source errors.  Loops the
  source leaves unbounded but that provably terminate (the extended-gcd
  loop, the recursive tree builds) receive fuel that provably exceeds
  the number of iterations the loop can perform, so the embedding and
  the source agree on every input.
* The external BLAKE3 hash (and xof), the GMP Miller-Rabin test and the
  GMP `next_prime` scan are third-party library calls, not repository
  code; hash and primality-test oracles are taken as function
  parameters, and `next_prime` is modelled as the least prime above its
  argument, which is that routine's documented behaviour.
* Rust `panic!` and division-by-zero panics on paths our theorems never
  exercise are modelled as errors.
* Error messages built with `format!` are embedded as fixed strings,
  with the interpolated values elided.
-/

set_option maxRecDepth 40000

deriving instance DecidableEq for Except

namespace Evolver

/-- Bit length of a natural number with explicit fuel; fuel `n` always
suffices for argument `n` because the argument halves each step.  Models
rug `significant_bits` (the bit length of the absolute value, 0 for 0). -/
def bitLenAux : Nat → Nat → Nat
  | 0, _ => 0
  | fuel + 1, n => if n = 0 then 0 else bitLenAux fuel (n / 2) + 1

/-- rug `Integer::significant_bits`: bit length of the absolute value. -/
def significant_bits (x : Int) : Nat :=
  bitLenAux x.natAbs x.natAbs

/-- ClassGroupElement from `core/algebra.rs`: a binary quadratic form
`(a, b, c)` intended to satisfy `b^2 - 4*a*c = discriminant`. -/
structure ClassGroupElement where
  a : Int
  b : Int
  c : Int
deriving DecidableEq, Repr

namespace ClassGroupElement

/-- Models `ClassGroupElement::identity`: `(1, 1, (1 - D) / 4)` (rug truncated
division, exact whenever `D = 1 mod 4`). -/
def identity (discriminant : Int) : ClassGroupElement :=
  ⟨1, 1, (1 - discriminant).tdiv 4⟩

/-- The `while r1 != 0` loop of `ClassGroupElement::extended_gcd`, with
structural fuel.  State `(r0, r1, s0, s1, t0, t1)`; each iteration
divides with rug `div_rem` (truncated). -/
def extGcdLoop : Nat → Int → Int → Int → Int → Int → Int → Int × Int × Int
  | 0, r0, _, s0, _, t0, _ => (r0, s0, t0)
  | fuel + 1, r0, r1, s0, s1, t0, t1 =>
    if r1 = 0 then (r0, s0, t0)
    else
      let q := r0.tdiv r1
      let r2 := r0.tmod r1
      extGcdLoop fuel r1 r2 s1 (s0 - q * s1) t1 (t0 - q * t1)

/-- Models `ClassGroupElement::extended_gcd`.  The loop runs at most
`b.natAbs + 1` iterations (`|r1|` strictly decreases, see
`extGcdLoop_fuel_enough`), so this fuel never runs out and the embedding
agrees with the unbounded Rust loop on every input. -/
def extended_gcd (a b : Int) : Int × Int × Int :=
  extGcdLoop (b.natAbs + 1) a b 1 0 0 1

/-- The reduction loop of `ClassGroupElement::reduce_form` (step 2),
with the source's `MAX_STEPS = 2000` divergence guard: the Rust
`safety_counter` admits iterations with counter `0..=2000` and errors on
the next one, i.e. exactly 2001 iterations of fuel. -/
def reduceLoop (discriminant : Int) : Nat → Int → Int → Int → Except String (Int × Int × Int)
  | 0, a, b, c =>
    if a > c ∨ (a = c ∧ b < 0) then
      .error "Critical Error: Reduction loop diverged (Infinite Loop Risk / CPU DoS)."
    else .ok (a, b, c)
  | fuel + 1, a, b, c =>
    if a > c ∨ (a = c ∧ b < 0) then
      let den := 2 * c
      if den = 0 then .error "Math Error: Division by zero in reduction (c=0)."
      else
        let s := (c + b).fdiv den
        let bNew := 2 * c * s - b
        let aNew := c
        let numNew := bNew ^ 2 - discriminant
        let denNew := 4 * aNew
        if denNew = 0 then .error "Math Error: Division by zero in reduction step."
        else
          if (numNew.tmod denNew) ≠ 0 then
            .error "Invariant Violated: Consistency lost during reduction step."
          else reduceLoop discriminant fuel aNew bNew (numNew.tdiv denNew)
    else .ok (a, b, c)

/-- Models `ClassGroupElement::reduce_form`: rejects `a = 0`; normalizes `b`
into `(-a, a]` via rug `rem_euc` (Euclidean remainder); computes
`c = (b^2 - D) / 4a` rejecting inexact division; runs the bounded
reduction loop; finally re-checks the discriminant identity and
primitivity `gcd(a, b, c) = 1`. -/
def reduce_form (a0 b0 : Int) (discriminant : Int) : Except String ClassGroupElement :=
  if 2 * a0 = 0 then .error "Math Error: coefficient a is zero (Degenerate Form)."
  else
    let b1 := b0.emod (2 * a0)
    let b2 := if b1 > a0 then b1 - 2 * a0 else b1
    let num := b2 ^ 2 - discriminant
    let den := 4 * a0
    if (num.tmod den) ≠ 0 then
      .error "Invariant Violated: (b^2 - D) not divisible by 4a."
    else
      match reduceLoop discriminant 2001 a0 b2 (num.tdiv den) with
      | .error e => .error e
      | .ok (a, b, c) =>
        if b ^ 2 - 4 * a * c ≠ discriminant then
          .error "Fatal Logic Error: Result discriminant mismatch."
        else if Nat.gcd (Int.gcd a b) c.natAbs ≠ 1 then
          .error "Security Halt: Form is not primitive."
        else .ok ⟨a, b, c⟩

/-- Models `ClassGroupElement::compose` (the partial Dirichlet/Cohen
composition): `s = (b1 + b2) >> 1` (arithmetic shift, i.e. floor
division by 2), `d = gcd(a1, a2)` from the extended gcd, rejection when
`d` does not divide `s`, then the congruence construction of the new
`(a, b)` handed to `reduce_form`. -/
def compose (f g : ClassGroupElement) (discriminant : Int) : Except String ClassGroupElement :=
  let s := (f.b + g.b).fdiv 2
  let egcd := extended_gcd f.a g.a
  let d := egcd.1
  let v := egcd.2.2
  if (s.tmod d) ≠ 0 then
    .error "Composition Error: gcd(a1, a2) does not divide s. Forms are incompatible."
  else
    let a1d := f.a.tdiv d
    let a2d := g.a.tdiv d
    let newA := a1d * a2d
    let val := v * ((s - g.b).tdiv d)
    let k0 := val.tmod a1d
    let k := if k0 < 0 then k0 + a1d else k0
    let newB := g.b + 2 * a2d * k
    reduce_form newA newB discriminant

/-- Models `ClassGroupElement::square` (self-composition): `g = gcd(a, b)` from
the extended gcd, `newA = (a/g)^2`, `newB = b + 2*(a/g)*((y*c) mod (a/g))`
with the remainder lifted to be non-negative, then `reduce_form`. -/
def square (f : ClassGroupElement) (discriminant : Int) : Except String ClassGroupElement :=
  let egcd := extended_gcd f.a f.b
  let g := egcd.1
  let y := egcd.2.2
  let adg := f.a.tdiv g
  let newA := adg * adg
  let yc0 := (y * f.c).tmod adg
  let yc := if yc0 < 0 then yc0 + adg else yc0
  let newB := f.b + 2 * adg * yc
  reduce_form newA newB discriminant

/-- The bit loop of `ClassGroupElement::pow`, processing exponent bits
from most significant (index `n - 1` on the first call with fuel `n`)
down to bit 0, updating the Montgomery-ladder pair `(r0, r1)`. -/
def powLoop (discriminant : Int) (e : Nat) :
    Nat → ClassGroupElement → ClassGroupElement → Except String ClassGroupElement
  | 0, r0, _ => .ok r0
  | i + 1, r0, r1 =>
    if e.testBit i then
      match r0.compose r1 discriminant with
      | .error er => .error er
      | .ok r0' =>
        match r1.square discriminant with
        | .error er => .error er
        | .ok r1' => powLoop discriminant e i r0' r1'
    else
      match r0.compose r1 discriminant with
      | .error er => .error er
      | .ok r1' =>
        match r0.square discriminant with
        | .error er => .error er
        | .ok r0' => powLoop discriminant e i r0' r1'

/-- Models `ClassGroupElement::pow`: zero exponent returns the identity,
otherwise the ladder runs over the `significant_bits` of the exponent.
(The system only ever exponentiates by non-negative integers; for those
`natAbs` bit access matches rug `get_bit`.) -/
def pow (f : ClassGroupElement) (e : Int) (discriminant : Int) : Except String ClassGroupElement :=
  if e = 0 then .ok (identity discriminant)
  else powLoop discriminant e.natAbs (significant_bits e) (identity discriminant) f

/-- Models `ClassGroupElement::apply_affine`: the streaming update
`S_new = S_old ^ p * q`. -/
def apply_affine (S : ClassGroupElement) (p : Int) (q : ClassGroupElement)
    (discriminant : Int) : Except String ClassGroupElement :=
  match S.pow p discriminant with
  | .error e => .error e
  | .ok sp => sp.compose q discriminant

end ClassGroupElement

/-- Safety limit `MAX_CHUNK_P_BITS` from `core/affine.rs`. -/
def MAX_CHUNK_P_BITS : Nat := 4096

/-- AffineTuple from `core/affine.rs`: a pair of a multiplicative
`p_factor` and a class-group `q_shift`. -/
structure AffineTuple where
  p_factor : Int
  q_shift : ClassGroupElement
deriving DecidableEq, Repr

namespace AffineTuple

/-- Models `AffineTuple::identity`. -/
def identity (discriminant : Int) : AffineTuple :=
  ⟨1, ClassGroupElement.identity discriminant⟩

/-- Models `AffineTuple::compose` (non-commutative time law): checks the
P-factor overflow fuse `significant_bits P1 + significant_bits P2 >
MAX_CHUNK_P_BITS`, then returns `(P1*P2, Q1^P2 * Q2)`. -/
def compose (t1 t2 : AffineTuple) (discriminant : Int) : Except String AffineTuple :=
  if significant_bits t1.p_factor + significant_bits t2.p_factor > MAX_CHUNK_P_BITS then
    .error "Falsified: Affine P-Factor overflow. Global accumulation is forbidden; use State Streaming instead."
  else
    let newP := t1.p_factor * t2.p_factor
    match t1.q_shift.pow t2.p_factor discriminant with
    | .error e => .error e
    | .ok q1p2 =>
      match q1p2.compose t2.q_shift discriminant with
      | .error e => .error e
      | .ok newQ => .ok ⟨newP, newQ⟩

/-- Models `AffineTuple::commutative_merge` (commutative space law):
`(P1*P2, Q1*Q2)` with plain group composition and no overflow fuse. -/
def commutative_merge (t1 t2 : AffineTuple) (discriminant : Int) : Except String AffineTuple :=
  let newP := t1.p_factor * t2.p_factor
  match t1.q_shift.compose t2.q_shift discriminant with
  | .error e => .error e
  | .ok newQ => .ok ⟨newP, newQ⟩

end AffineTuple

/-- A spatial coordinate, `type Coordinate = Vec<usize>`. -/
def Coordinate := List Nat
deriving DecidableEq

/-- TimeSegmentTree from `topology/tensor.rs`: the ordered leaves of one
cell's history. -/
structure TimeSegmentTree where
  leaves : List AffineTuple
deriving DecidableEq

namespace TimeSegmentTree

/-- Models `TimeSegmentTree::build_tree_recursive`, with structural fuel: the
recursion splits the slice at `mid = len / 2` and composes the two
halves left-to-right with the non-commutative law.  Each recursive call
strictly shrinks the slice, so fuel `nodes.length` (supplied by the
callers below) always suffices and the fuel-exhaustion error is
unreachable. -/
def buildTreeRec (discriminant : Int) : Nat → List AffineTuple → Except String AffineTuple
  | _, [] => .ok (AffineTuple.identity discriminant)
  | _, [t] => .ok t
  | 0, _ :: _ :: _ => .error "internal: tree fuel exhausted"
  | fuel + 1, n0 :: n1 :: rest =>
    let nodes := n0 :: n1 :: rest
    let mid := nodes.length / 2
    match buildTreeRec discriminant fuel (nodes.take mid) with
    | .error e => .error e
    | .ok left =>
      match buildTreeRec discriminant fuel (nodes.drop mid) with
      | .error e => .error e
      | .ok right => left.compose right discriminant

/-- Models `TimeSegmentTree::build_tree_recursive` at its natural fuel. -/
def build_tree_recursive (discriminant : Int) (nodes : List AffineTuple) :
    Except String AffineTuple :=
  buildTreeRec discriminant nodes.length nodes

/-- Models `TimeSegmentTree::root`: identity for an empty history, otherwise
the left-to-right fold of the leaves. -/
def root (t : TimeSegmentTree) (discriminant : Int) : Except String AffineTuple :=
  if t.leaves.isEmpty then .ok (AffineTuple.identity discriminant)
  else build_tree_recursive discriminant t.leaves

/-- Models `TimeSegmentTree::generate_witness_recursive`, with structural fuel
like `buildTreeRec`.  Returns the aggregate of the slice together with
the witness entries pushed by this call (this level's sibling aggregate
first, then the deeper entries), mirroring the push order of the Rust
`witness` vector.  The source recurses forever on an empty slice; that
state is unreachable from `generate_witness` and is modelled by the
fuel-exhaustion error. -/
def genWitnessRec (discriminant : Int) :
    Nat → List AffineTuple → Nat → Nat → Except String (AffineTuple × List (AffineTuple × Bool))
  | _, [t], _, _ => .ok (t, [])
  | 0, _, _, _ => .error "internal: witness fuel exhausted"
  | _ + 1, [], _, _ => .error "internal: witness fuel exhausted"
  | fuel + 1, n0 :: n1 :: rest, target, offset =>
    let nodes := n0 :: n1 :: rest
    let mid := nodes.length / 2
    if target < offset + mid then
      match build_tree_recursive discriminant (nodes.drop mid) with
      | .error e => .error e
      | .ok rightAgg =>
        match genWitnessRec discriminant fuel (nodes.take mid) target offset with
        | .error e => .error e
        | .ok (leftAgg, deeper) =>
          match build_tree_recursive discriminant (nodes.drop mid) with
          | .error e => .error e
          | .ok rightAgg2 =>
            match leftAgg.compose rightAgg2 discriminant with
            | .error e => .error e
            | .ok agg => .ok (agg, (rightAgg, false) :: deeper)
    else
      match build_tree_recursive discriminant (nodes.take mid) with
      | .error e => .error e
      | .ok leftAgg =>
        match genWitnessRec discriminant fuel (nodes.drop mid) target (offset + mid) with
        | .error e => .error e
        | .ok (rightAgg, deeper) =>
          match leftAgg.compose rightAgg discriminant with
          | .error e => .error e
          | .ok agg => .ok (agg, (leftAgg, true) :: deeper)

/-- Models `TimeSegmentTree::generate_witness`: rejects an index at or past the
recorded history length with a security error, otherwise runs the
recursive witness construction and returns the collected path. -/
def generate_witness (t : TimeSegmentTree) (index : Nat) (discriminant : Int) :
    Except String (List (AffineTuple × Bool)) :=
  if t.leaves.length ≤ index then
    .error "Security Halt: Witness index out of bounds. Evolution cannot be extrapolated."
  else
    match genWitnessRec discriminant t.leaves.length t.leaves index 0 with
    | .error e => .error e
    | .ok r => .ok r.2

end TimeSegmentTree

/-- HyperTensor from `topology/tensor.rs` (the fields the folding and
symmetry check use; the rug discriminant, the dimension count, the side
length, and the per-coordinate histories, with the HashMap embedded as
an association list with distinct coordinate keys). -/
structure HyperTensor where
  dimensions : Nat
  side_length : Nat
  discriminant : Int
  data : List (Coordinate × TimeSegmentTree)

namespace HyperTensor

/-- Insert a group index into a sorted duplicate-free index list;
together with `sortedIndices` this models collecting the keys of the
per-level `groups` HashMap and sorting them, as `fold_sparse` does. -/
def insertIdx (n : Nat) : List Nat → List Nat
  | [] => [n]
  | m :: ms =>
    if n < m then n :: m :: ms
    else if n = m then m :: ms
    else m :: insertIdx n ms

/-- Sorted duplicate-free list of the values of `l`. -/
def sortedIndices (l : List Nat) : List Nat :=
  l.foldl (fun acc n => insertIdx n acc) []

/-- Models `HyperTensor::reconstruct_spatial_snapshot`: collapse each cell's
time tree to its root (non-commutative) and keep only cells whose root
is not the identity tuple (the sparse optimization). -/
def reconstruct_spatial_snapshot (T : HyperTensor) :
    Except String (List (Coordinate × AffineTuple)) :=
  T.data.foldlM
    (fun acc cd =>
      match cd.2.root T.discriminant with
      | .error e => .error e
      | .ok cellRoot =>
        if cellRoot.p_factor ≠ 1 then .ok (acc ++ [(cd.1, cellRoot)])
        else if cellRoot.q_shift ≠ ClassGroupElement.identity T.discriminant then
          .ok (acc ++ [(cd.1, cellRoot)])
        else .ok acc)
    []

/-- Models `HyperTensor::fold_sparse` from `topology/folding.rs`.  The Rust
recursion carries `depth` into `dim_order[depth]`; here the not yet
folded suffix of `dim_order` is consumed instead (the callers always
pass an order of length `dimensions`, so reaching `depth == dimensions`
is reaching the empty suffix).  An empty data set folds to the identity;
so does a fully consumed dimension order.  Otherwise the data are
grouped by their coordinate at the head dimension (coordinates too short
for that dimension are skipped, as by the `continue`), and the groups
are folded in ascending index order with `commutative_merge` starting
from the identity. -/
def fold_sparse (discriminant : Int) :
    List Nat → List (Coordinate × AffineTuple) → Except String AffineTuple
  | _, [] => .ok (AffineTuple.identity discriminant)
  | [], _ => .ok (AffineTuple.identity discriminant)
  | targetDim :: rest, d0 :: drest =>
    let data := d0 :: drest
    let relevant := data.filter (fun cd => decide (targetDim < cd.1.length))
    let idxs := sortedIndices (relevant.map (fun cd => cd.1.getD targetDim 0))
    idxs.foldlM
      (fun layerAgg idx =>
        match fold_sparse discriminant rest
            (relevant.filter (fun cd => decide (cd.1.getD targetDim 0 = idx))) with
        | .error e => .error e
        | .ok subResult => layerAgg.commutative_merge subResult discriminant)
      (AffineTuple.identity discriminant)

/-- Models `HyperTensor::compute_root_internal`: micro-fold (time) then
macro-fold (space) along the given dimension order. -/
def compute_root_internal (T : HyperTensor) (dimOrder : List Nat) :
    Except String AffineTuple :=
  match T.reconstruct_spatial_snapshot with
  | .error e => .error e
  | .ok flatData => fold_sparse T.discriminant dimOrder flatData

/-- Swap of the first two entries of a list, as `order_b.swap(0, 1)`. -/
def swap01 : List Nat → List Nat
  | a :: b :: t => b :: a :: t
  | l => l

/-- Models `HyperTensor::verify_holographic_symmetry`: fold in the natural
order, then (when at least two dimensions exist) in the order with the
first two dimensions swapped, and report whether the two roots agree in
both components. -/
def verify_holographic_symmetry (T : HyperTensor) : Except String Bool :=
  let orderA := List.range T.dimensions
  match T.compute_root_internal orderA with
  | .error e => .error e
  | .ok rootA =>
    if 2 ≤ T.dimensions then
      match T.compute_root_internal (swap01 orderA) with
      | .error e => .error e
      | .ok rootB =>
        .ok (decide (rootA.p_factor = rootB.p_factor ∧ rootA.q_shift = rootB.q_shift))
    else .ok true

end HyperTensor

/-- Opaque 256-bit digests of `net/wire.rs` are modelled as naturals;
the BLAKE3 node and leaf hash computations are taken as function
parameters wherever they are used. -/
def Hash256 := Nat
deriving DecidableEq

/-- MerkleProof from `net/wire.rs`. -/
structure MerkleProof where
  leaf_index : Nat
  leaf_hash : Hash256
  siblings : List Hash256
deriving DecidableEq

namespace MerkleProof

/-- The sibling-folding loop of `MerkleProof::verify`: at each level the
current hash is combined with the sibling on the side chosen by the
parity of the index, and the index is halved.  `nodeHash l r` models the
domain-separated `blake3(HTP_MERKLE_NODE, l, r)`. -/
def foldPath (nodeHash : Hash256 → Hash256 → Hash256) :
    List Hash256 → Nat → Hash256 → Hash256
  | [], _, current => current
  | sib :: rest, index, current =>
    let current' := if index % 2 = 0 then nodeHash current sib else nodeHash sib current
    foldPath nodeHash rest (index / 2) current'

/-- Models `MerkleProof::verify`: fold the siblings from the leaf and compare
with the given global root. -/
def verify (nodeHash : Hash256 → Hash256 → Hash256) (mp : MerkleProof)
    (globalRoot : Hash256) : Bool :=
  decide (foldPath nodeHash mp.siblings mp.leaf_index mp.leaf_hash = globalRoot)

end MerkleProof

/-- StateTransitionProof from `net/wire.rs`. -/
structure StateTransitionProof where
  checkpoint_state : ClassGroupElement
  log_inclusion_proof : MerkleProof
  replay_ops : List AffineTuple
  claimed_final_state : ClassGroupElement

namespace StateTransitionProof

/-- The replay loop of `StateTransitionProof::verify`: apply each
recorded operator in turn with the class-group affine update, stopping
at the first failure. -/
def replayFold (discriminant : Int) (start : ClassGroupElement) (ops : List AffineTuple) :
    Except String ClassGroupElement :=
  ops.foldlM (fun s op => s.apply_affine op.p_factor op.q_shift discriminant) start

/-- Models `StateTransitionProof::verify`.  `leafHash p q` models the
domain-separated `blake3(HTP_LOG_ENTRY_V1, p, q.a, q.b, q.c)` used both
at log-write time and here; the binding check recomputes it at
`(P = 1, checkpoint_state)`.  The three checks run in order and
short-circuit to `false` at the first failure. -/
def verify (leafHash : Int → ClassGroupElement → Hash256)
    (nodeHash : Hash256 → Hash256 → Hash256)
    (pf : StateTransitionProof) (globalMerkleRoot : Hash256) (discriminant : Int) : Bool :=
  if leafHash 1 pf.checkpoint_state ≠ pf.log_inclusion_proof.leaf_hash then false
  else if ¬ pf.log_inclusion_proof.verify nodeHash globalMerkleRoot then false
  else
    match replayFold discriminant pf.checkpoint_state pf.replay_ops with
    | .error _ => false
    | .ok finalState => decide (finalState = pf.claimed_final_state)

end StateTransitionProof

/-- Byte strings handed to the parameter generator are modelled as lists
of naturals. -/
def Bytes := List Nat
deriving DecidableEq

/-- Security floor from `core/param.rs`. -/
def MIN_DISCRIMINANT_BITS : Nat := 3072

/-- SystemParameters from `core/param.rs`. -/
structure SystemParameters where
  discriminant : Int
deriving DecidableEq

namespace SystemParameters

/-- Set bit `i` of `n` (rug `set_bit(i, true)`). -/
def setBit (n : Nat) (i : Nat) : Nat :=
  if n.testBit i then n else n + 2 ^ i

/-- Models `SystemParameters::verify_vdf` in its compiled (mock) configuration:
fail closed on any empty payload, otherwise compare the proof against
the simulation binding hash of input and output.  `h input output`
models `blake3(EVOLVER_VDF_SIMULATION_BINDING, input, output)`. -/
def verify_vdf (h : Bytes → Bytes → Bytes) (input output proof : Bytes) : Bool :=
  if input.isEmpty ∨ output.isEmpty ∨ proof.isEmpty then false
  else decide (proof = h input output)

/-- The candidate built by one attempt of
`SystemParameters::generate_internal`: the BLAKE3 xof fills
`(bit_size + 7) / 8` bytes (`xof seed attempt` models that output as a
natural, reduced modulo the buffer width), and the top bit is forced. -/
def candidateOf (xof : Bytes → Nat → Nat) (seed : Bytes) (bitSize : Nat) (attempt : Nat) : Nat :=
  let numBytes := (bitSize + 7) / 8
  setBit (xof seed attempt % 2 ^ (8 * numBytes)) (bitSize - 1)

/-- The attempt loop of `SystemParameters::generate_internal`, with the
source's `max_attempts = 10_000_000` cap as fuel: a candidate is
accepted when it is `3 mod 4` and passes the Miller-Rabin oracle `mr`
(modelling `is_probably_prime(50) != IsPrime::No`); the discriminant is
its negation.  Exhausting the cap is a fatal abort in the source
(`panic!`), modelled as an error. -/
def generateLoop (xof : Bytes → Nat → Nat) (mr : Nat → Bool) (seed : Bytes) (bitSize : Nat) :
    Nat → Nat → Except String SystemParameters
  | 0, _ => .error "Failed to generate System Parameters. Entropy pool exhausted. System Halted."
  | fuel + 1, attempt =>
    let candidate := candidateOf xof seed bitSize attempt
    if candidate % 4 ≠ 3 then generateLoop xof mr seed bitSize fuel (attempt + 1)
    else if mr candidate then .ok ⟨-(candidate : Int)⟩
    else generateLoop xof mr seed bitSize fuel (attempt + 1)

/-- Models `SystemParameters::generate_internal`. -/
def generate_internal (xof : Bytes → Nat → Nat) (mr : Nat → Bool) (seed : Bytes)
    (bitSize : Nat) : Except String SystemParameters :=
  generateLoop xof mr seed bitSize 10000001 0

/-- Models `SystemParameters::derive_trustless_discriminant`: verify the
time-lock proof (failing closed), then mix beacon hash and VDF output
into a seed (`mix` models the domain-separated BLAKE3 mixing) and run
the internal generator at the full `MIN_DISCRIMINANT_BITS` width. -/
def derive_trustless_discriminant (h : Bytes → Bytes → Bytes) (mix : Bytes → Bytes → Bytes)
    (xof : Bytes → Nat → Nat) (mr : Nat → Bool)
    (beaconBlockHash vdfOutput vdfProof : Bytes) : Except String SystemParameters :=
  if ¬ verify_vdf h beaconBlockHash vdfOutput vdfProof then
    .error "FATAL: VDF Proof Invalid. The randomness source may be manipulated."
  else generate_internal xof mr (mix beaconBlockHash vdfOutput) MIN_DISCRIMINANT_BITS

end SystemParameters

namespace Primes

/-- Bounded ascending prime scan: `nextPrimeAux fuel m` returns the
first prime at or above `m` within `fuel` steps (falling back to the
final candidate on exhaustion, which `nextPrime_prime` shows is never
reached). -/
def nextPrimeAux : Nat → Nat → Nat
  | 0, m => m
  | fuel + 1, m => if Nat.Prime m then m else nextPrimeAux fuel (m + 1)

/-- Modelled from the spec and the GMP documentation: rug
`Integer::next_prime` (an external library call, not repository code)
returns the least prime exceeding its argument; by the Bertrand bound a
prime always occurs among the `n + 2` candidates scanned. -/
def next_prime (n : Nat) : Nat :=
  nextPrimeAux (n + 2) (n + 1)

/-- One phase-1 candidate of `hash_to_prime`: the xof output for the
given nonce truncated to the buffer width, with top and bottom bits
forced.  `xof input nonce` models the BLAKE3 xof keyed by the length-
prefixed input and the nonce. -/
def candidateOf (xof : String → Nat → Nat) (input : String) (bitSize : Nat) (nonce : Nat) : Nat :=
  let numBytes := (bitSize + 7) / 8
  SystemParameters.setBit
    (SystemParameters.setBit (xof input nonce % 2 ^ (8 * numBytes)) (bitSize - 1)) 0

/-- The phase-1 nonce loop of `hash_to_prime` (`optimal_search_limit =
1000` as fuel): candidates divisible by 3 or 5 are skipped, the rest are
submitted to the Miller-Rabin oracle `mr` (modelling
`is_probably_prime(25) != IsPrime::No`). -/
def phase1 (xof : String → Nat → Nat) (mr : Nat → Bool) (input : String) (bitSize : Nat) :
    Nat → Nat → Option Nat
  | 0, _ => none
  | fuel + 1, nonce =>
    let candidate := candidateOf xof input bitSize nonce
    if candidate % 3 = 0 ∨ candidate % 5 = 0 then phase1 xof mr input bitSize fuel (nonce + 1)
    else if mr candidate then some candidate
    else phase1 xof mr input bitSize fuel (nonce + 1)

/-- The phase-2 fallback start of `hash_to_prime`: a second,
differently tagged xof derivation (`xof2 input`), truncated and with top
and bottom bits forced. -/
def fallbackCandidate (xof2 : String → Nat) (input : String) (bitSize : Nat) : Nat :=
  let numBytes := (bitSize + 7) / 8
  SystemParameters.setBit
    (SystemParameters.setBit (xof2 input % 2 ^ (8 * numBytes)) (bitSize - 1)) 0

/-- Models `hash_to_prime` from `core/primes.rs`: the probabilistic nonce scan,
then the deterministic next-prime fallback; the function always returns
`Ok`. -/
def hash_to_prime (xof : String → Nat → Nat) (xof2 : String → Nat) (mr : Nat → Bool)
    (input : String) (bitSize : Nat) : Except String Nat :=
  match phase1 xof mr input bitSize 1000 0 with
  | some p => .ok p
  | none => .ok (next_prime (fallbackCandidate xof2 input bitSize))

end Primes

/-- The reducedness and primitivity invariants of a class-group element
for discriminant `Δ`, exactly as `reduce_form` is meant to enforce them:
positive leading coefficient, the discriminant identity, the reduction
inequalities with the canonical tie-breaks, and primitivity. -/
def IsReducedPrimitive (Δ : Int) (f : ClassGroupElement) : Prop :=
  0 < f.a ∧ f.b ^ 2 - 4 * f.a * f.c = Δ ∧ |f.b| ≤ f.a ∧ f.a ≤ f.c ∧
    ((|f.b| = f.a ∨ f.a = f.c) → 0 ≤ f.b) ∧
    Nat.gcd (Int.gcd f.a f.b) f.c.natAbs = 1

instance (Δ : Int) (f : ClassGroupElement) : Decidable (IsReducedPrimitive Δ f) := by
  unfold IsReducedPrimitive
  exact inferInstance

/-- The streaming accumulator of claim C5: start from the identity and
apply each operator in turn with `apply_affine` (the per-stream loop of
the Streaming Evolution Core). -/
def stream_fold (Δ : Int) (ops : List (Int × ClassGroupElement)) :
    Except String ClassGroupElement :=
  ops.foldlM (fun S op => S.apply_affine op.1 op.2 Δ) (ClassGroupElement.identity Δ)

/-- The shape invariant the reduction loop maintains for a negative
discriminant and positive leading coefficient: positivity of the outer
coefficients, the normalized-`b` window, and the discriminant identity. -/
def LoopInv (Δ : Int) (a b c : Int) : Prop :=
  0 < a ∧ 0 < c ∧ -a < b ∧ b ≤ a ∧ 4 * a * c = b ^ 2 - Δ

/-! ## General helper lemmas -/

theorem natAbs_tmod_lt (a : Int) {b : Int} (hb : b ≠ 0) : (a.tmod b).natAbs < b.natAbs := by
  cases a with
  | ofNat m =>
    cases b with
    | ofNat n =>
      have hn : n ≠ 0 := by simpa using hb
      simpa [Int.tmod] using Nat.mod_lt m (Nat.pos_of_ne_zero hn)
    | negSucc n =>
      simpa [Int.tmod] using Nat.mod_lt m (Nat.succ_pos n)
  | negSucc m =>
    cases b with
    | ofNat n =>
      have hn : n ≠ 0 := by simpa using hb
      simpa [Int.tmod] using Nat.mod_lt (m + 1) (Nat.pos_of_ne_zero hn)
    | negSucc n =>
      simpa [Int.tmod] using Nat.mod_lt (m + 1) (Nat.succ_pos n)

theorem bitLenAux_eq_size : ∀ (fuel n : Nat), n ≤ fuel → bitLenAux fuel n = n.size := by
  intro fuel
  induction fuel with
  | zero =>
    intro n hn
    interval_cases n
    simp [bitLenAux, Nat.size_zero]
  | succ fuel ih =>
    intro n hn
    by_cases h0 : n = 0
    · simp [bitLenAux, h0, Nat.size_zero]
    · have hrec : n.size = (n / 2).size + 1 := by
        have hb := Nat.size_bit (b := n.bodd) (n := n.div2) (by rw [Nat.bit_decomp]; exact h0)
        rw [Nat.bit_decomp] at hb
        rw [hb, Nat.div2_val]
      have hlt : n / 2 < n := Nat.div_lt_self (Nat.pos_of_ne_zero h0) (by norm_num)
      have : bitLenAux fuel (n / 2) = (n / 2).size := ih (n / 2) (by omega)
      simp [bitLenAux, h0, this, hrec]

theorem significant_bits_eq_size (x : Int) : significant_bits x = x.natAbs.size :=
  bitLenAux_eq_size _ _ le_rfl

theorem significant_bits_two_pow (n : Nat) : significant_bits ((2 : Int) ^ n) = n + 1 := by
  rw [significant_bits_eq_size]
  have h : ((2 : Int) ^ n).natAbs = 2 ^ n := by
    rw [Int.natAbs_pow]
    rfl
  rw [h, Nat.size_pow]

theorem extGcdLoop_dvd :
    ∀ (fuel : Nat) (r0 r1 s0 s1 t0 t1 : Int), r1.natAbs < fuel →
      (ClassGroupElement.extGcdLoop fuel r0 r1 s0 s1 t0 t1).1 ∣ r0 ∧
        (ClassGroupElement.extGcdLoop fuel r0 r1 s0 s1 t0 t1).1 ∣ r1 ∧
        (r0 ≠ 0 ∨ r1 ≠ 0 → (ClassGroupElement.extGcdLoop fuel r0 r1 s0 s1 t0 t1).1 ≠ 0) := by
  intro fuel
  induction fuel with
  | zero => intro r0 r1 s0 s1 t0 t1 h; omega
  | succ fuel ih =>
    intro r0 r1 s0 s1 t0 t1 h
    by_cases h1 : r1 = 0
    · subst h1
      simp only [ClassGroupElement.extGcdLoop, if_pos rfl]
      refine ⟨dvd_rfl, dvd_zero _, ?_⟩
      rintro (h0 | h0)
      · exact h0
      · exact absurd rfl h0
    · simp only [ClassGroupElement.extGcdLoop, if_neg h1]
      have hlt : (r0.tmod r1).natAbs < fuel := by
        have := natAbs_tmod_lt r0 h1
        omega
      obtain ⟨d1, d2, dne⟩ := ih r1 (r0.tmod r1) s1 (s0 - r0.tdiv r1 * s1) t1
        (t0 - r0.tdiv r1 * t1) hlt
      refine ⟨?_, d1, fun _ => dne (Or.inl h1)⟩
      have heq : r0.tmod r1 + r1 * r0.tdiv r1 = r0 := Int.tmod_add_tdiv r0 r1
      calc (ClassGroupElement.extGcdLoop fuel r1 (r0.tmod r1) s1 (s0 - r0.tdiv r1 * s1) t1
            (t0 - r0.tdiv r1 * t1)).1 ∣ r0.tmod r1 + r1 * r0.tdiv r1 :=
            dvd_add d2 (d1.mul_right _)
        _ = r0 := heq

theorem extended_gcd_dvd (a b : Int) :
    (ClassGroupElement.extended_gcd a b).1 ∣ a ∧
      (ClassGroupElement.extended_gcd a b).1 ∣ b ∧
      (a ≠ 0 → (ClassGroupElement.extended_gcd a b).1 ≠ 0) := by
  have h := extGcdLoop_dvd (b.natAbs + 1) a b 1 0 0 1 (by omega)
  exact ⟨h.1, h.2.1, fun ha => h.2.2 (Or.inl ha)⟩

theorem reduceLoop_invariant (Δ : Int) (hΔ : Δ < 0) :
    ∀ (fuel : Nat) (a b c : Int), LoopInv Δ a b c →
      ∀ a' b' c', ClassGroupElement.reduceLoop Δ fuel a b c = .ok (a', b', c') →
        LoopInv Δ a' b' c' ∧ a' ≤ c' ∧ (a' = c' → 0 ≤ b') := by
  intro fuel
  induction fuel with
  | zero =>
    intro a b c hinv a' b' c' hok
    simp only [ClassGroupElement.reduceLoop] at hok
    by_cases hcond : a > c ∨ (a = c ∧ b < 0)
    · rw [if_pos hcond] at hok; cases hok
    · rw [if_neg hcond] at hok
      push_neg at hcond
      cases hok
      exact ⟨hinv, hcond.1, fun hac => hcond.2 hac⟩
  | succ fuel ih =>
    intro a b c hinv a' b' c' hok
    obtain ⟨ha, hc, hb1, hb2, heq⟩ := hinv
    simp only [ClassGroupElement.reduceLoop] at hok
    by_cases hcond : a > c ∨ (a = c ∧ b < 0)
    · rw [if_pos hcond] at hok
      have hden : ¬(2 * c = 0) := by omega
      rw [if_neg hden] at hok
      have hdenN : ¬(4 * c = 0) := by omega
      rw [if_neg hdenN] at hok
      set s := (c + b).fdiv (2 * c) with hs
      set bN := 2 * c * s - b with hbN
      by_cases hmod : ((bN ^ 2 - Δ).tmod (4 * c)) ≠ 0
      · rw [if_pos hmod] at hok; cases hok
      · rw [if_neg hmod] at hok
        push_neg at hmod
        set cN := (bN ^ 2 - Δ).tdiv (4 * c) with hcN
        have h2c : (0 : Int) < 2 * c := by omega
        have hfd : (c + b).fdiv (2 * c) = (c + b) / (2 * c) :=
          Int.fdiv_eq_ediv _ (le_of_lt h2c)
        have hdm := Int.ediv_add_emod (c + b) (2 * c)
        have hr0 : 0 ≤ (c + b) % (2 * c) := Int.emod_nonneg _ (by omega)
        have hrlt : (c + b) % (2 * c) < 2 * c := Int.emod_lt_of_pos _ h2c
        have hbNr : bN = c - (c + b) % (2 * c) := by
          rw [hbN, hs, hfd]; linarith
        have hbN1 : -c < bN := by omega
        have hbN2 : bN ≤ c := by omega
        have hdvd : (4 * c) ∣ (bN ^ 2 - Δ) := Int.dvd_of_tmod_eq_zero hmod
        have hceq : 4 * c * cN = bN ^ 2 - Δ := by
          rw [hcN]; exact Int.mul_tdiv_cancel' hdvd
        have hnum : 0 < bN ^ 2 - Δ := by nlinarith [sq_nonneg bN]
        have hcNpos : 0 < cN := by nlinarith
        exact ih c bN cN ⟨hc, hcNpos, hbN1, hbN2, hceq⟩ a' b' c' hok
    · rw [if_neg hcond] at hok
      push_neg at hcond
      cases hok
      exact ⟨⟨ha, hc, hb1, hb2, heq⟩, hcond.1, fun hac => hcond.2 hac⟩

theorem reduce_form_bounds (Δ a0 b0 : Int) (hΔ : Δ < 0) (ha0 : 0 < a0)
    (f : ClassGroupElement) (h : ClassGroupElement.reduce_form a0 b0 Δ = .ok f) :
    0 < f.a ∧ -f.a < f.b ∧ f.b ≤ f.a ∧ f.a ≤ f.c ∧ (f.a = f.c → 0 ≤ f.b) ∧
      f.b ^ 2 - 4 * f.a * f.c = Δ ∧ Nat.gcd (Int.gcd f.a f.b) f.c.natAbs = 1 := by
  unfold ClassGroupElement.reduce_form at h
  have h2a0 : ¬(2 * a0 = 0) := by omega
  rw [if_neg h2a0] at h
  set b1 := b0.emod (2 * a0) with hb1def
  have hb1lo : 0 ≤ b1 := Int.emod_nonneg _ (by omega)
  have hb1hi : b1 < 2 * a0 := Int.emod_lt_of_pos _ (by omega)
  set b2 := if b1 > a0 then b1 - 2 * a0 else b1 with hb2def
  have hb2lo : -a0 < b2 := by
    rw [hb2def]; split <;> omega
  have hb2hi : b2 ≤ a0 := by
    rw [hb2def]; split <;> omega
  by_cases hmod : (((b2 ^ 2 - Δ).tmod (4 * a0)) ≠ 0)
  · rw [if_pos hmod] at h; cases h
  · rw [if_neg hmod] at h
    push_neg at hmod
    have hdvd : (4 * a0) ∣ (b2 ^ 2 - Δ) := Int.dvd_of_tmod_eq_zero hmod
    set c0 := (b2 ^ 2 - Δ).tdiv (4 * a0) with hc0def
    have hceq : 4 * a0 * c0 = b2 ^ 2 - Δ := by
      rw [hc0def]; exact Int.mul_tdiv_cancel' hdvd
    have hnum : 0 < b2 ^ 2 - Δ := by nlinarith [sq_nonneg b2]
    have hc0pos : 0 < c0 := by nlinarith
    rcases hloop : ClassGroupElement.reduceLoop Δ 2001 a0 b2 c0 with e | tr
    · rw [hloop] at h; cases h
    · rw [hloop] at h
      obtain ⟨a, b, c⟩ := tr
      have hinv := reduceLoop_invariant Δ hΔ 2001 a0 b2 c0
        ⟨ha0, hc0pos, hb2lo, hb2hi, hceq⟩ a b c hloop
      dsimp only at h
      by_cases hd : b ^ 2 - 4 * a * c ≠ Δ
      · rw [if_pos hd] at h; cases h
      · rw [if_neg hd] at h
        push_neg at hd
        by_cases hg : Nat.gcd (Int.gcd a b) c.natAbs ≠ 1
        · rw [if_pos hg] at h; cases h
        · rw [if_neg hg] at h
          push_neg at hg
          cases h
          obtain ⟨⟨hA, hC, hB1, hB2, _⟩, hAC, htie⟩ := hinv
          exact ⟨hA, hB1, hB2, hAC, htie, hd, hg⟩

theorem reduced_bounds_arith (Δ a b c : Int) (hΔ : Δ < 0) (ha : 0 < a) (hb1 : -a < b)
    (hb2 : b ≤ a) (hac : a ≤ c) (hdisc : b ^ 2 - 4 * a * c = Δ) :
    3 * a ^ 2 ≤ -Δ ∧ a ≤ -Δ ∧ -(-Δ) ≤ b ∧ b ≤ -Δ ∧ 0 < c ∧ c ≤ -Δ := by
  have ha1 : 1 ≤ a := ha
  have hbsq : b ^ 2 ≤ a ^ 2 := by nlinarith [sq_nonneg (a + b), sq_nonneg (a - b)]
  have h4ac : 4 * a * c = b ^ 2 - Δ := by linarith
  have h3a : 3 * a ^ 2 ≤ -Δ := by nlinarith
  have haD : a ≤ -Δ := by nlinarith
  have hcpos : 0 < c := by nlinarith [sq_nonneg b]
  have hcD : c ≤ -Δ := by nlinarith
  exact ⟨h3a, haD, by linarith, by linarith, hcpos, hcD⟩

theorem reduce_form_ok_ne_zero (Δ a0 b0 : Int) (f : ClassGroupElement)
    (h : ClassGroupElement.reduce_form a0 b0 Δ = .ok f) : a0 ≠ 0 := by
  intro ha0
  unfold ClassGroupElement.reduce_form at h
  rw [if_pos (by omega)] at h
  cases h

theorem compose_bounds (Δ : Int) (hΔ : Δ < 0) (f g h : ClassGroupElement)
    (hf : 0 < f.a) (hg : 0 < g.a) (hok : f.compose g Δ = .ok h) :
    0 < h.a ∧ -h.a < h.b ∧ h.b ≤ h.a ∧ h.a ≤ h.c ∧ (h.a = h.c → 0 ≤ h.b) ∧
      h.b ^ 2 - 4 * h.a * h.c = Δ ∧ Nat.gcd (Int.gcd h.a h.b) h.c.natAbs = 1 := by
  unfold ClassGroupElement.compose at hok
  set s := (f.b + g.b).fdiv 2 with hsdef
  set d := (ClassGroupElement.extended_gcd f.a g.a).1 with hddef
  by_cases hmod : (s.tmod d) ≠ 0
  · rw [if_pos hmod] at hok; cases hok
  · rw [if_neg hmod] at hok
    obtain ⟨hd1, hd2, hdne⟩ := extended_gcd_dvd f.a g.a
    have hdne0 : d ≠ 0 := hdne (by omega)
    have hk1 : f.a.tdiv d * d = f.a := Int.tdiv_mul_cancel hd1
    have hk2 : g.a.tdiv d * d = g.a := Int.tdiv_mul_cancel hd2
    have hd2pos : 0 < d ^ 2 := by positivity
    have hfg : 0 < f.a * g.a := mul_pos hf hg
    have hprod : f.a.tdiv d * g.a.tdiv d * d ^ 2 = f.a * g.a := by
      calc f.a.tdiv d * g.a.tdiv d * d ^ 2 = (f.a.tdiv d * d) * (g.a.tdiv d * d) := by ring
        _ = f.a * g.a := by rw [hk1, hk2]
    have hnewA : 0 < f.a.tdiv d * g.a.tdiv d := by nlinarith
    exact reduce_form_bounds Δ _ _ hΔ hnewA h hok

theorem square_bounds (Δ : Int) (hΔ : Δ < 0) (f h : ClassGroupElement)
    (hok : f.square Δ = .ok h) :
    0 < h.a ∧ -h.a < h.b ∧ h.b ≤ h.a ∧ h.a ≤ h.c ∧ (h.a = h.c → 0 ≤ h.b) ∧
      h.b ^ 2 - 4 * h.a * h.c = Δ ∧ Nat.gcd (Int.gcd h.a h.b) h.c.natAbs = 1 := by
  unfold ClassGroupElement.square at hok
  set adg := f.a.tdiv (ClassGroupElement.extended_gcd f.a f.b).1 with hadg
  have hne : adg * adg ≠ 0 := reduce_form_ok_ne_zero Δ _ _ h hok
  have hpos : 0 < adg * adg := lt_of_le_of_ne (mul_self_nonneg adg) (Ne.symm hne)
  exact reduce_form_bounds Δ _ _ hΔ hpos h hok

theorem powLoop_pos (Δ : Int) (hΔ : Δ < 0) (e : Nat) :
    ∀ (n : Nat) (r0 r1 h : ClassGroupElement), 0 < r0.a → 0 < r1.a →
      ClassGroupElement.powLoop Δ e n r0 r1 = .ok h → 0 < h.a := by
  intro n
  induction n with
  | zero =>
    intro r0 r1 h h0 h1 hok
    simp only [ClassGroupElement.powLoop] at hok
    cases hok
    exact h0
  | succ n ih =>
    intro r0 r1 h h0 h1 hok
    simp only [ClassGroupElement.powLoop] at hok
    by_cases hbit : e.testBit n
    · rw [if_pos hbit] at hok
      rcases hc : r0.compose r1 Δ with er | r0'
      · rw [hc] at hok; cases hok
      · rw [hc] at hok
        dsimp only at hok
        rcases hs : r1.square Δ with er | r1'
        · rw [hs] at hok; cases hok
        · rw [hs] at hok
          dsimp only at hok
          exact ih r0' r1' h (compose_bounds Δ hΔ r0 r1 r0' h0 h1 hc).1
            (square_bounds Δ hΔ r1 r1' hs).1 hok
    · rw [if_neg hbit] at hok
      rcases hc : r0.compose r1 Δ with er | r1'
      · rw [hc] at hok; cases hok
      · rw [hc] at hok
        dsimp only at hok
        rcases hs : r0.square Δ with er | r0'
        · rw [hs] at hok; cases hok
        · rw [hs] at hok
          dsimp only at hok
          exact ih r0' r1' h (square_bounds Δ hΔ r0 r0' hs).1
            (compose_bounds Δ hΔ r0 r1 r1' h0 h1 hc).1 hok

theorem identity_a_pos (Δ : Int) : 0 < (ClassGroupElement.identity Δ).a := by
  simp [ClassGroupElement.identity]

theorem pow_pos (Δ : Int) (hΔ : Δ < 0) (f : ClassGroupElement) (e : Int)
    (h : ClassGroupElement) (hf : 0 < f.a) (hok : f.pow e Δ = .ok h) : 0 < h.a := by
  unfold ClassGroupElement.pow at hok
  by_cases he : e = 0
  · rw [if_pos he] at hok
    cases hok
    exact identity_a_pos Δ
  · rw [if_neg he] at hok
    exact powLoop_pos Δ hΔ e.natAbs (significant_bits e) (ClassGroupElement.identity Δ) f h
      (identity_a_pos Δ) hf hok

theorem apply_affine_bounds (Δ : Int) (hΔ : Δ < 0) (p : Int) (S q S' : ClassGroupElement)
    (hS : 0 < S.a) (hq : 0 < q.a) (hok : S.apply_affine p q Δ = .ok S') :
    0 < S'.a ∧ -S'.a < S'.b ∧ S'.b ≤ S'.a ∧ S'.a ≤ S'.c ∧
      S'.b ^ 2 - 4 * S'.a * S'.c = Δ := by
  unfold ClassGroupElement.apply_affine at hok
  rcases hp : S.pow p Δ with er | sp
  · rw [hp] at hok; cases hok
  · rw [hp] at hok
    have hsp : 0 < sp.a := pow_pos Δ hΔ S p sp hS hp
    obtain ⟨h1, h2, h3, h4, _, h6, _⟩ := compose_bounds Δ hΔ sp q S' hsp hq hok
    exact ⟨h1, h2, h3, h4, h6⟩

theorem apply_affine_abs (Δ : Int) (hΔ : Δ < 0) (p : Int) (S q S' : ClassGroupElement)
    (hS : 0 < S.a) (hq : 0 < q.a) (hok : S.apply_affine p q Δ = .ok S') :
    0 < S'.a ∧ S'.a.natAbs ≤ Δ.natAbs ∧ S'.b.natAbs ≤ Δ.natAbs ∧ S'.c.natAbs ≤ Δ.natAbs ∧
      3 * S'.a ^ 2 ≤ -Δ := by
  obtain ⟨h1, h2, h3, h4, h6⟩ := apply_affine_bounds Δ hΔ p S q S' hS hq hok
  obtain ⟨g1, g2, g3, g4, g5, g6⟩ := reduced_bounds_arith Δ S'.a S'.b S'.c hΔ h1 h2 h3 h4 h6
  refine ⟨h1, ?_, ?_, ?_, g1⟩ <;> omega

theorem stream_fold_go (Δ : Int) (hΔ : Δ < 0) :
    ∀ (ops : List (Int × ClassGroupElement)) (S0 : ClassGroupElement), 0 < S0.a →
      (∀ op ∈ ops, 0 < op.2.a) →
      ∀ S, ops.foldlM (fun S op => S.apply_affine op.1 op.2 Δ) S0 = .ok S →
        0 < S.a ∧ (ops ≠ [] → S.a.natAbs ≤ Δ.natAbs ∧ S.b.natAbs ≤ Δ.natAbs ∧
          S.c.natAbs ≤ Δ.natAbs ∧ 3 * S.a ^ 2 ≤ -Δ) := by
  intro ops
  induction ops with
  | nil =>
    intro S0 h0 hmem S h
    simp only [List.foldlM_nil] at h
    cases h
    exact ⟨h0, fun hne => absurd rfl hne⟩
  | cons op t ih =>
    intro S0 h0 hmem S h
    rw [List.foldlM_cons] at h
    rcases happ : S0.apply_affine op.1 op.2 Δ with er | S1
    · rw [happ] at h; cases h
    · rw [happ] at h
      replace h : List.foldlM (fun S op => S.apply_affine op.1 op.2 Δ) S1 t = .ok S := h
      have hopa : 0 < op.2.a := hmem op (List.mem_cons_self op t)
      obtain ⟨p1, p2, p3, p4, p5⟩ := apply_affine_abs Δ hΔ op.1 S0 op.2 S1 h0 hopa happ
      have hmem' : ∀ o ∈ t, 0 < o.2.a := fun o ho => hmem o (List.mem_cons_of_mem op ho)
      obtain ⟨q1, q2⟩ := ih S1 p1 hmem' S h
      refine ⟨q1, fun _ => ?_⟩
      by_cases ht : t = []
      · subst ht
        simp only [List.foldlM_nil] at h
        cases h
        exact ⟨p2, p3, p4, p5⟩
      · exact q2 ht

theorem identity_abs (Δ : Int) (hΔ : Δ < 0) :
    (ClassGroupElement.identity Δ).a.natAbs ≤ Δ.natAbs ∧
      (ClassGroupElement.identity Δ).b.natAbs ≤ Δ.natAbs ∧
      (ClassGroupElement.identity Δ).c.natAbs ≤ Δ.natAbs := by
  have h1 : (0 : Int) ≤ 1 - Δ := by omega
  have h2 : (1 - Δ).tdiv 4 = (1 - Δ) / 4 := Int.tdiv_eq_ediv h1 (by norm_num)
  have h3 := Int.ediv_add_emod (1 - Δ) 4
  have h4 : 0 ≤ (1 - Δ) % 4 := Int.emod_nonneg _ (by norm_num)
  have h5 : 0 ≤ (1 - Δ) / 4 := Int.ediv_nonneg h1 (by norm_num)
  simp only [ClassGroupElement.identity]
  refine ⟨by omega, by omega, ?_⟩
  rw [h2]
  omega

/-! ## Claims C4 and C5 -/

/-- Counterexample to C4 as stated: the claim quantifies over every
call of `reduce_form`, but for the positive discriminant 5 the call
`reduce_form(1, 1, 5)` (with positive input leading coefficient)
succeeds and returns `(-1, -1, 1)`, whose leading coefficient is
negative and which violates `|b| <= a`.  The invariants hold only for
negative discriminants. -/
theorem c4_reduce_form_invariants_counterexample :
    ClassGroupElement.reduce_form 1 1 5 = .ok ⟨-1, -1, 1⟩ ∧
      (0 : Int) < 1 ∧ ¬(0 < (-1 : Int) ∧ |(-1 : Int)| ≤ (-1 : Int)) := by
  refine ⟨by decide, by decide, by decide⟩

/-- C4 (amended: for a negative discriminant): every `ClassGroupElement`
that `reduce_form` returns successfully on a negative discriminant and
positive input leading coefficient satisfies the discriminant identity
`b^2 - 4ac = Δ`, primitivity `gcd(a, b, c) = 1`, `a > 0`,
`|b| ≤ a ≤ c`, and `b ≥ 0` whenever `|b| = a` or `a = c`. -/
theorem c4_reduce_form_invariants (Δ a0 b0 : Int) (hΔ : Δ < 0) (ha0 : 0 < a0)
    (f : ClassGroupElement) (h : ClassGroupElement.reduce_form a0 b0 Δ = .ok f) :
    f.b ^ 2 - 4 * f.a * f.c = Δ ∧ Nat.gcd (Int.gcd f.a f.b) f.c.natAbs = 1 ∧ 0 < f.a ∧
      |f.b| ≤ f.a ∧ f.a ≤ f.c ∧ ((|f.b| = f.a ∨ f.a = f.c) → 0 ≤ f.b) := by
  obtain ⟨hA, hB1, hB2, hAC, htie, hdisc, hgcd⟩ := reduce_form_bounds Δ a0 b0 hΔ ha0 f h
  have habs : |f.b| ≤ f.a := abs_le.mpr ⟨by linarith, hB2⟩
  refine ⟨hdisc, hgcd, hA, habs, hAC, ?_⟩
  rintro (hb | hac)
  · rcases abs_cases f.b with ⟨he, _⟩ | ⟨he, _⟩
    · linarith
    · omega
  · exact htie hac

/-- Witness for the amended C4: reducing `(2, 1)` at the discriminant
-47 returns the reduced primitive form `(2, 1, 6)` with all the stated
invariants. -/
theorem c4_reduce_form_invariants_witness :
    ((⟨2, 1, 6⟩ : ClassGroupElement).b ^ 2 -
        4 * (⟨2, 1, 6⟩ : ClassGroupElement).a * (⟨2, 1, 6⟩ : ClassGroupElement).c = -47) ∧
      Nat.gcd (Int.gcd (⟨2, 1, 6⟩ : ClassGroupElement).a (⟨2, 1, 6⟩ : ClassGroupElement).b)
        (⟨2, 1, 6⟩ : ClassGroupElement).c.natAbs = 1 ∧
      0 < (⟨2, 1, 6⟩ : ClassGroupElement).a ∧
      |(⟨2, 1, 6⟩ : ClassGroupElement).b| ≤ (⟨2, 1, 6⟩ : ClassGroupElement).a ∧
      (⟨2, 1, 6⟩ : ClassGroupElement).a ≤ (⟨2, 1, 6⟩ : ClassGroupElement).c ∧
      ((|(⟨2, 1, 6⟩ : ClassGroupElement).b| = (⟨2, 1, 6⟩ : ClassGroupElement).a ∨
          (⟨2, 1, 6⟩ : ClassGroupElement).a = (⟨2, 1, 6⟩ : ClassGroupElement).c) →
        0 ≤ (⟨2, 1, 6⟩ : ClassGroupElement).b) :=
  c4_reduce_form_invariants (-47) 2 1 (by norm_num) (by norm_num) ⟨2, 1, 6⟩ (by decide)

/-- C5: for a fixed negative discriminant, folding any operator stream
whose shifts have positive leading coefficients through `apply_affine`
from the identity keeps every coefficient of the accumulator within
`|Δ|` after every successful prefix, and after every genuine step the
accumulator is reduced with `3*a^2 ≤ |Δ|`; so the accumulator size is
bounded by a constant depending only on `Δ` and not on the stream
length. -/
theorem c5_streaming_accumulator_bounded (Δ : Int) (hΔ : Δ < 0)
    (ops : List (Int × ClassGroupElement)) (hops : ∀ op ∈ ops, 0 < op.2.a)
    (k : Nat) (S : ClassGroupElement) (h : stream_fold Δ (ops.take k) = .ok S) :
    S.a.natAbs ≤ Δ.natAbs ∧ S.b.natAbs ≤ Δ.natAbs ∧ S.c.natAbs ≤ Δ.natAbs ∧
      (1 ≤ k → k ≤ ops.length → 3 * S.a ^ 2 ≤ -Δ) := by
  unfold stream_fold at h
  have hmem : ∀ op ∈ ops.take k, 0 < op.2.a := fun op hop =>
    hops op (List.mem_of_mem_take hop)
  obtain ⟨hpos, hbnds⟩ := stream_fold_go Δ hΔ (ops.take k) (ClassGroupElement.identity Δ)
    (identity_a_pos Δ) hmem S h
  by_cases hne : ops.take k = []
  · rw [hne] at h
    simp only [List.foldlM_nil] at h
    cases h
    obtain ⟨i1, i2, i3⟩ := identity_abs Δ hΔ
    refine ⟨i1, i2, i3, fun hk1 hk2 => ?_⟩
    rw [List.take_eq_nil_iff] at hne
    rcases hne with hne | hne
    · omega
    · rw [hne] at hk2
      simp at hk2
      omega
  · obtain ⟨b1, b2, b3, b4⟩ := hbnds hne
    exact ⟨b1, b2, b3, fun _ _ => b4⟩

/-- Witness for C5: one step with the operator `(1, identity)` at the
discriminant -7 keeps the accumulator at the identity `(1, 1, 2)`,
inside all the stated bounds. -/
theorem c5_streaming_accumulator_bounded_witness :
    ((⟨1, 1, 2⟩ : ClassGroupElement).a.natAbs ≤ (-7 : Int).natAbs ∧
      (⟨1, 1, 2⟩ : ClassGroupElement).b.natAbs ≤ (-7 : Int).natAbs ∧
      (⟨1, 1, 2⟩ : ClassGroupElement).c.natAbs ≤ (-7 : Int).natAbs ∧
      (1 ≤ 1 → 1 ≤ [((1 : Int), (⟨1, 1, 2⟩ : ClassGroupElement))].length →
        3 * (⟨1, 1, 2⟩ : ClassGroupElement).a ^ 2 ≤ -(-7 : Int))) :=
  c5_streaming_accumulator_bounded (-7) (by norm_num)
    [((1 : Int), (⟨1, 1, 2⟩ : ClassGroupElement))] (by decide) 1 ⟨1, 1, 2⟩ (by decide)

/-! ## Claim C6 machinery: composing with the identity -/

theorem reduceLoop_exit (Δ : Int) (fuel : Nat) (a b c : Int)
    (hcond : ¬(a > c ∨ (a = c ∧ b < 0))) :
    ClassGroupElement.reduceLoop Δ fuel a b c = .ok (a, b, c) := by
  cases fuel with
  | zero =>
    simp only [ClassGroupElement.reduceLoop]
    rw [if_neg hcond]
  | succ fuel =>
    simp only [ClassGroupElement.reduceLoop]
    rw [if_neg hcond]

theorem reduced_b_lower (Δ : Int) (f : ClassGroupElement) (hf : IsReducedPrimitive Δ f) :
    -f.a < f.b := by
  obtain ⟨ha, _, habs, _, htie, _⟩ := hf
  by_cases hba : f.b = -f.a
  · have habs' : |f.b| = f.a := by rw [hba, abs_neg, abs_of_pos ha]
    have := htie (Or.inl habs')
    omega
  · have := (abs_le.mp habs).1
    omega

/-- Handing `reduce_form` the leading coefficient of a reduced primitive
form together with any `B` congruent to its middle coefficient modulo
`2a` returns exactly that form: the normalization recovers `b`, the
division recovers `c`, the reduction loop exits immediately and the
final self-checks pass. -/
theorem reduce_form_fixed_point (Δ : Int) (f : ClassGroupElement)
    (hf : IsReducedPrimitive Δ f) (B t : Int) (hB : B = f.b + 2 * f.a * t) :
    ClassGroupElement.reduce_form f.a B Δ = .ok f := by
  obtain ⟨ha, hdisc, habs, hac, htie, hgcd⟩ := hf
  have hb1 : -f.a < f.b := reduced_b_lower Δ f ⟨ha, hdisc, habs, hac, htie, hgcd⟩
  have hb2 : f.b ≤ f.a := (abs_le.mp habs).2
  have h2a : (0 : Int) < 2 * f.a := by omega
  have hBmod : B.emod (2 * f.a) = f.b.emod (2 * f.a) := by
    rw [hB]
    exact Int.add_mul_emod_self_left f.b (2 * f.a) t
  have hfbmod : f.b.emod (2 * f.a) = if f.b < 0 then f.b + 2 * f.a else f.b := by
    by_cases hneg : f.b < 0
    · rw [if_pos hneg]
      have h1 : (f.b + 2 * f.a).emod (2 * f.a) = f.b.emod (2 * f.a) := by
        have h2 := Int.add_mul_emod_self_left f.b (2 * f.a) 1
        rw [mul_one] at h2
        exact h2
      rw [← h1]
      exact Int.emod_eq_of_lt (by omega) (by omega)
    · rw [if_neg hneg]
      exact Int.emod_eq_of_lt (by omega) (by omega)
  have hb2eq : (if B.emod (2 * f.a) > f.a then B.emod (2 * f.a) - 2 * f.a
      else B.emod (2 * f.a)) = f.b := by
    rw [hBmod, hfbmod]
    by_cases hneg : f.b < 0
    · rw [if_pos hneg, if_pos (by omega)]
      ring
    · rw [if_neg hneg, if_neg (by omega)]
  have hnum : f.b ^ 2 - Δ = 4 * f.a * f.c := by linarith
  unfold ClassGroupElement.reduce_form
  rw [if_neg (by omega)]
  dsimp only
  rw [hb2eq, hnum]
  have h4a : (4 * f.a) ≠ 0 := by omega
  have htmod : (4 * f.a * f.c).tmod (4 * f.a) = 0 := Int.mul_tmod_right _ _
  rw [if_neg (by rw [htmod]; exact fun hc => hc rfl)]
  have htdiv : (4 * f.a * f.c).tdiv (4 * f.a) = f.c := Int.mul_tdiv_cancel_left f.c h4a
  rw [htdiv]
  have hcond : ¬(f.a > f.c ∨ (f.a = f.c ∧ f.b < 0)) := by
    push_neg
    refine ⟨by omega, fun hacc => ?_⟩
    exact htie (Or.inr hacc)
  rw [reduceLoop_exit Δ 2001 f.a f.b f.c hcond]
  dsimp only
  rw [if_neg (by rw [hdisc]; exact fun hc => hc rfl), if_neg (by rw [hgcd]; exact fun hc => hc rfl)]

theorem extended_gcd_one_right (a : Int) :
    ClassGroupElement.extended_gcd a 1 = (1, 0, 1) := by
  unfold ClassGroupElement.extended_gcd
  norm_num
  simp [ClassGroupElement.extGcdLoop, Int.tdiv_one, Int.tmod_one]

theorem odd_of_discriminant (Δ : Int) (hΔ4 : Δ % 4 = 1) (f : ClassGroupElement)
    (hdisc : f.b ^ 2 - 4 * f.a * f.c = Δ) : ∃ m, f.b = 2 * m + 1 := by
  rcases Int.even_or_odd f.b with ⟨m, hm⟩ | ⟨m, hm⟩
  · exfalso
    have hsq : f.b ^ 2 = Δ + 4 * (f.a * f.c) := by linarith
    have h1 : f.b ^ 2 % 4 = Δ % 4 := by
      rw [hsq]
      exact Int.add_mul_emod_self_left Δ 4 (f.a * f.c)
    have h2 : f.b ^ 2 = 4 * m ^ 2 := by rw [hm]; ring
    have h3 : f.b ^ 2 % 4 = 0 := by
      rw [h2]
      simp [Int.mul_emod_right]
    rw [h3] at h1
    have h4 : (0 : Int) = 1 := h1.trans hΔ4
    norm_num at h4
  · exact ⟨m, hm⟩

/-- Models `compose(f, identity, Δ)` returns `f` unchanged for every reduced
primitive form `f` of a discriminant congruent to 1 modulo 4. -/
theorem compose_right_identity (Δ : Int) (hΔ4 : Δ % 4 = 1) (f : ClassGroupElement)
    (hf : IsReducedPrimitive Δ f) :
    f.compose (ClassGroupElement.identity Δ) Δ = .ok f := by
  obtain ⟨ha, hdisc, habs, hac, htie, hgcd⟩ := hf
  obtain ⟨m, hm⟩ := odd_of_discriminant Δ hΔ4 f hdisc
  have hegcd := extended_gcd_one_right f.a
  unfold ClassGroupElement.compose
  have hidb : (ClassGroupElement.identity Δ).b = 1 := rfl
  have hida : (ClassGroupElement.identity Δ).a = 1 := rfl
  rw [hidb, hida, hegcd]
  dsimp only
  have hs : (f.b + 1).fdiv 2 = m + 1 := by
    have : f.b + 1 = 2 * (m + 1) := by omega
    rw [this]
    exact Int.mul_fdiv_cancel_left (m + 1) (by norm_num)
  rw [hs, Int.tmod_one]
  rw [if_neg (fun hc => hc rfl)]
  rw [Int.tdiv_one, Int.tdiv_one, Int.tdiv_one]
  have hval : (1 : Int) * (m + 1 - 1) = m := by ring
  rw [hval]
  set k0 := m.tmod f.a with hk0
  have hk0eq : k0 = m - f.a * m.tdiv f.a := by
    rw [hk0]
    have := Int.tmod_add_tdiv m f.a
    linarith
  set k := if k0 < 0 then k0 + f.a else k0 with hk
  have hkcong : ∃ t, k = m + f.a * t := by
    rw [hk]
    by_cases hneg : k0 < 0
    · exact ⟨1 - m.tdiv f.a, by rw [if_pos hneg, hk0eq]; ring⟩
    · exact ⟨-m.tdiv f.a, by rw [if_neg hneg, hk0eq]; ring⟩
  obtain ⟨t, hkt⟩ := hkcong
  have hB : 1 + 2 * 1 * k = f.b + 2 * f.a * t := by
    rw [hkt, hm]; ring
  rw [mul_one, mul_one]
  rw [show 1 + 2 * k = f.b + 2 * f.a * t by linarith]
  exact reduce_form_fixed_point Δ f ⟨ha, hdisc, habs, hac, htie, hgcd⟩ _ t rfl

/-- C6: composing any reduced primitive form of a valid discriminant
(negative, congruent to 1 mod 4) with the identity element on the right
succeeds and returns the form itself. -/
theorem c6_compose_right_identity (Δ : Int) (hΔ : Δ < 0) (hΔ4 : Δ % 4 = 1)
    (f : ClassGroupElement) (hf : IsReducedPrimitive Δ f) :
    f.compose (ClassGroupElement.identity Δ) Δ = .ok f :=
  compose_right_identity Δ hΔ4 f hf

/-- Witness for C6: the reduced primitive form `(2, 1, 6)` of
discriminant -47 composed with the identity gives `(2, 1, 6)` back. -/
theorem c6_compose_right_identity_witness :
    ClassGroupElement.compose ⟨2, 1, 6⟩ (ClassGroupElement.identity (-47)) (-47) =
      .ok ⟨2, 1, 6⟩ :=
  c6_compose_right_identity (-47) (by norm_num) (by decide) ⟨2, 1, 6⟩ (by decide)

/-! ## Claim C2 machinery: the spatial fold and holographic symmetry -/

theorem identity_reduced (Δ : Int) (hΔ : Δ < 0) (hΔ4 : Δ % 4 = 1) :
    IsReducedPrimitive Δ (ClassGroupElement.identity Δ) := by
  have hdvd : (4 : Int) ∣ (1 - Δ) := by
    refine Int.dvd_of_emod_eq_zero ?_
    omega
  have hc4 : 4 * ((1 - Δ).tdiv 4) = 1 - Δ := Int.mul_tdiv_cancel' hdvd
  have hΔ3 : Δ ≤ -3 := by omega
  refine ⟨by norm_num [ClassGroupElement.identity], ?_, ?_, ?_, ?_, ?_⟩
  · show (1 : Int) ^ 2 - 4 * 1 * ((1 - Δ).tdiv 4) = Δ
    nlinarith [hc4]
  · show |(1 : Int)| ≤ 1
    norm_num
  · show (1 : Int) ≤ (1 - Δ).tdiv 4
    nlinarith [hc4]
  · intro _
    norm_num [ClassGroupElement.identity]
  · show Nat.gcd (Int.gcd 1 1) ((1 - Δ).tdiv 4).natAbs = 1
    norm_num

theorem commutative_merge_identity (Δ : Int) (hΔ : Δ < 0) (hΔ4 : Δ % 4 = 1) :
    (AffineTuple.identity Δ).commutative_merge (AffineTuple.identity Δ) Δ =
      .ok (AffineTuple.identity Δ) := by
  unfold AffineTuple.commutative_merge
  have h := compose_right_identity Δ hΔ4 (ClassGroupElement.identity Δ)
    (identity_reduced Δ hΔ hΔ4)
  rw [show (AffineTuple.identity Δ).q_shift = ClassGroupElement.identity Δ from rfl, h]
  rfl

theorem foldlM_merge_identity (Δ : Int) (hΔ : Δ < 0) (hΔ4 : Δ % 4 = 1)
    (g : Nat → Except String AffineTuple) (hg : ∀ i, g i = .ok (AffineTuple.identity Δ)) :
    ∀ (idxs : List Nat),
      idxs.foldlM
        (fun layerAgg idx =>
          match g idx with
          | Except.error e => Except.error e
          | Except.ok subResult => layerAgg.commutative_merge subResult Δ)
        (AffineTuple.identity Δ) = .ok (AffineTuple.identity Δ) := by
  intro idxs
  induction idxs with
  | nil => rfl
  | cons i t ih =>
    rw [List.foldlM_cons]
    show (match g i with
      | Except.error e => Except.error e
      | Except.ok subResult =>
        (AffineTuple.identity Δ).commutative_merge subResult Δ) >>= _ = _
    rw [hg i]
    show (AffineTuple.identity Δ).commutative_merge (AffineTuple.identity Δ) Δ >>= _ = _
    rw [commutative_merge_identity Δ hΔ hΔ4]
    exact ih

/-- For a valid discriminant the spatial fold always returns the
identity tuple regardless of the data and the dimension order: the
recursion at full depth returns the identity and discards the cell
values, so every level merges only identity tuples. -/
theorem fold_sparse_identity (Δ : Int) (hΔ : Δ < 0) (hΔ4 : Δ % 4 = 1) :
    ∀ (order : List Nat) (data : List (Coordinate × AffineTuple)),
      HyperTensor.fold_sparse Δ order data = .ok (AffineTuple.identity Δ) := by
  intro order
  induction order with
  | nil =>
    intro data
    cases data <;> rfl
  | cons targetDim rest ih =>
    intro data
    cases data with
    | nil => rfl
    | cons d0 drest =>
      show (HyperTensor.fold_sparse Δ (targetDim :: rest) (d0 :: drest)) = _
      simp only [HyperTensor.fold_sparse]
      exact foldlM_merge_identity Δ hΔ hΔ4 _ (fun i => ih _) _

theorem compute_root_internal_const (T : HyperTensor) (hΔ : T.discriminant < 0)
    (hΔ4 : T.discriminant % 4 = 1) (order : List Nat) :
    T.compute_root_internal order = T.compute_root_internal (List.range T.dimensions) := by
  unfold HyperTensor.compute_root_internal
  cases h : T.reconstruct_spatial_snapshot with
  | error e => rfl
  | ok flat =>
    dsimp only
    rw [fold_sparse_identity T.discriminant hΔ hΔ4 order flat,
      fold_sparse_identity T.discriminant hΔ hΔ4 (List.range T.dimensions) flat]

/-- C2: on a tensor over a valid discriminant, folding in any
permutation of the dimension order yields the same root tuple (same
P factor and same Q shift) as the natural order, and
`verify_holographic_symmetry` answers `Ok true` whenever both folds
succeed.  (In this code base both roots are always the identity tuple:
`fold_sparse` returns the identity at full depth and discards the cell
values, so the folded root never depends on the data at all.) -/
theorem c2_holographic_symmetry (T : HyperTensor) (hΔ : T.discriminant < 0)
    (hΔ4 : T.discriminant % 4 = 1) (order : List Nat)
    (hperm : order.Perm (List.range T.dimensions)) :
    T.compute_root_internal order = T.compute_root_internal (List.range T.dimensions) ∧
      ∀ r, T.verify_holographic_symmetry = .ok r → r = true := by
  refine ⟨compute_root_internal_const T hΔ hΔ4 order, ?_⟩
  intro r hr
  unfold HyperTensor.verify_holographic_symmetry at hr
  dsimp only at hr
  rcases ha : T.compute_root_internal (List.range T.dimensions) with e | rootA
  · rw [ha] at hr; cases hr
  · rw [ha] at hr
    dsimp only at hr
    by_cases hd : 2 ≤ T.dimensions
    · rw [if_pos hd] at hr
      have hb := compute_root_internal_const T hΔ hΔ4
        (HyperTensor.swap01 (List.range T.dimensions))
      rw [hb, ha] at hr
      dsimp only at hr
      have hdec : (decide (rootA.p_factor = rootA.p_factor ∧ rootA.q_shift = rootA.q_shift)) =
          true := by simp
      rw [hdec] at hr
      cases hr
      rfl
    · rw [if_neg hd] at hr
      cases hr
      rfl

/-- Witness for C2: a 2-dimensional tensor over the discriminant -7
folds to the same root under the swapped order `[1, 0]` as under the
natural order. -/
theorem c2_holographic_symmetry_witness :
    HyperTensor.compute_root_internal
        ⟨2, 2, -7, [([0, 0], ⟨[AffineTuple.identity (-7)]⟩)]⟩ [1, 0] =
      HyperTensor.compute_root_internal
        ⟨2, 2, -7, [([0, 0], ⟨[AffineTuple.identity (-7)]⟩)]⟩ (List.range 2) :=
  (c2_holographic_symmetry ⟨2, 2, -7, [([0, 0], ⟨[AffineTuple.identity (-7)]⟩)]⟩
    (by decide) (by decide) [1, 0]
    (by rw [show List.range 2 = [0, 1] from rfl]; exact List.Perm.swap 0 1 [])).1

/-! ## Claims C7 and C8 machinery: bit forcing and prime scanning -/

theorem setBit_le_self (n i : Nat) : n ≤ SystemParameters.setBit n i := by
  unfold SystemParameters.setBit
  split
  · exact le_rfl
  · exact Nat.le_add_right n _

theorem setBit_ge (n i : Nat) : 2 ^ i ≤ SystemParameters.setBit n i := by
  unfold SystemParameters.setBit
  split
  · exact Nat.testBit_implies_ge (by assumption)
  · omega

theorem setBit_lt (n i w : Nat) (hn : n < 2 ^ w) (hi : i < w) :
    SystemParameters.setBit n i < 2 ^ w := by
  unfold SystemParameters.setBit
  split
  · exact hn
  · rename_i htb
    have htb0 : n / 2 ^ i % 2 = 0 := by
      rw [Nat.testBit_to_div_mod] at htb
      simp only [decide_eq_true_eq] at htb
      omega
    have hmod : n / 2 ^ i % 2 = n % (2 ^ i * 2) / 2 ^ i := Nat.div_mod_eq_mod_mul_div n (2 ^ i) 2
    have hpow : 2 ^ i * 2 = 2 ^ (i + 1) := (pow_succ 2 i).symm
    rw [hmod, hpow] at htb0
    have hpos : 0 < 2 ^ i := Nat.pos_pow_of_pos i (by norm_num)
    have hr : n % 2 ^ (i + 1) < 2 ^ i := by
      rw [← Nat.div_eq_zero_iff hpos]
      exact htb0
    have hqr := Nat.div_add_mod n (2 ^ (i + 1))
    have hM : 2 ^ w = 2 ^ (i + 1) * 2 ^ (w - (i + 1)) := by
      rw [← pow_add]
      congr 1
      omega
    have hq : n / 2 ^ (i + 1) < 2 ^ (w - (i + 1)) := by
      apply Nat.div_lt_of_lt_mul
      rw [← hM]
      exact hn
    have h2 : 2 ^ (i + 1) = 2 * 2 ^ i := by rw [pow_succ]; ring
    set Q := n / 2 ^ (i + 1)
    set R := n % 2 ^ (i + 1)
    set M := 2 ^ (w - (i + 1))
    have hQM : Q + 1 ≤ M := hq
    calc n + 2 ^ i = 2 ^ (i + 1) * Q + R + 2 ^ i := by omega
      _ < 2 ^ (i + 1) * Q + 2 ^ (i + 1) := by omega
      _ = 2 ^ (i + 1) * (Q + 1) := by ring
      _ ≤ 2 ^ (i + 1) * M := Nat.mul_le_mul_left _ hQM
      _ = 2 ^ w := hM.symm

theorem candidateOf_range (xof : Bytes → Nat → Nat) (seed : Bytes) (bitSize attempt : Nat)
    (h : 0 < bitSize) :
    2 ^ (bitSize - 1) ≤ SystemParameters.candidateOf xof seed bitSize attempt ∧
      SystemParameters.candidateOf xof seed bitSize attempt < 2 ^ (8 * ((bitSize + 7) / 8)) := by
  unfold SystemParameters.candidateOf
  constructor
  · exact setBit_ge _ _
  · apply setBit_lt
    · exact Nat.mod_lt _ (Nat.pos_pow_of_pos _ (by norm_num))
    · omega

theorem generateLoop_ok (xof : Bytes → Nat → Nat) (mr : Nat → Bool) (seed : Bytes)
    (bitSize : Nat) (h : 0 < bitSize) :
    ∀ (fuel attempt : Nat) (P : SystemParameters),
      SystemParameters.generateLoop xof mr seed bitSize fuel attempt = .ok P →
      ∃ cand : Nat, P = ⟨-(cand : Int)⟩ ∧ cand % 4 = 3 ∧ mr cand = true ∧
        2 ^ (bitSize - 1) ≤ cand ∧ cand < 2 ^ (8 * ((bitSize + 7) / 8)) := by
  intro fuel
  induction fuel with
  | zero =>
    intro attempt P hok
    simp only [SystemParameters.generateLoop] at hok
    cases hok
  | succ fuel ih =>
    intro attempt P hok
    simp only [SystemParameters.generateLoop] at hok
    by_cases h4 : SystemParameters.candidateOf xof seed bitSize attempt % 4 ≠ 3
    · rw [if_pos h4] at hok
      exact ih (attempt + 1) P hok
    · rw [if_neg h4] at hok
      push_neg at h4
      by_cases hmr : mr (SystemParameters.candidateOf xof seed bitSize attempt) = true
      · rw [if_pos hmr] at hok
        cases hok
        obtain ⟨hlo, hhi⟩ := candidateOf_range xof seed bitSize attempt h
        exact ⟨SystemParameters.candidateOf xof seed bitSize attempt, rfl, h4, hmr, hlo, hhi⟩
      · rw [if_neg hmr] at hok
        exact ih (attempt + 1) P hok

/-- C7: the trustless setup fails closed whenever VDF verification
fails, VDF verification fails on any empty payload, and every
successfully derived discriminant is negative, congruent to 1 modulo 4,
has a magnitude of exactly the full 3072-bit width (top bit forced),
and that magnitude passes the 50-round Miller-Rabin oracle. -/
theorem c7_derive_trustless_discriminant (h mix : Bytes → Bytes → Bytes)
    (xof : Bytes → Nat → Nat) (mr : Nat → Bool) (beacon vdfOut vdfProof : Bytes) :
    (SystemParameters.verify_vdf h beacon vdfOut vdfProof = false →
      SystemParameters.derive_trustless_discriminant h mix xof mr beacon vdfOut vdfProof =
        .error "FATAL: VDF Proof Invalid. The randomness source may be manipulated.") ∧
    ((beacon = [] ∨ vdfOut = [] ∨ vdfProof = []) →
      SystemParameters.verify_vdf h beacon vdfOut vdfProof = false) ∧
    (∀ P, SystemParameters.derive_trustless_discriminant h mix xof mr beacon vdfOut vdfProof =
        .ok P →
      P.discriminant < 0 ∧ P.discriminant % 4 = 1 ∧
        (2 : Int) ^ 3071 ≤ -P.discriminant ∧ -P.discriminant < (2 : Int) ^ 3072 ∧
        mr (-P.discriminant).toNat = true) := by
  refine ⟨?_, ?_, ?_⟩
  · intro hv
    unfold SystemParameters.derive_trustless_discriminant
    rw [hv]
    rfl
  · intro he
    unfold SystemParameters.verify_vdf
    have hcond : (beacon.isEmpty = true) ∨ (vdfOut.isEmpty = true) ∨
        (vdfProof.isEmpty = true) := by
      rcases he with he | he | he <;> simp [he]
    rw [if_pos hcond]
  · intro P hok
    unfold SystemParameters.derive_trustless_discriminant at hok
    by_cases hv : SystemParameters.verify_vdf h beacon vdfOut vdfProof = true
    · rw [if_neg (fun hc => hc hv)] at hok
      obtain ⟨cand, hP, h4, hmr, hlo, hhi⟩ := generateLoop_ok xof mr
        (mix beacon vdfOut) MIN_DISCRIMINANT_BITS (by norm_num [MIN_DISCRIMINANT_BITS])
        10000001 0 P hok
      have hlo' : 2 ^ 3071 ≤ cand := by
        simpa [MIN_DISCRIMINANT_BITS] using hlo
      have hhi' : cand < 2 ^ 3072 := by
        simpa [MIN_DISCRIMINANT_BITS] using hhi
      have hcpos : 0 < cand := lt_of_lt_of_le (Nat.pos_pow_of_pos 3071 (by norm_num)) hlo'
      subst hP
      refine ⟨?_, ?_, ?_, ?_, ?_⟩
      · show -(cand : Int) < 0
        clear hlo hhi hlo' hhi' h4 hmr hok
        omega
      · show -(cand : Int) % 4 = 1
        clear hlo hhi hlo' hhi' hmr hok
        omega
      · show (2 : Int) ^ 3071 ≤ -(-(cand : Int))
        rw [neg_neg]
        exact_mod_cast hlo'
      · show -(-(cand : Int)) < (2 : Int) ^ 3072
        rw [neg_neg]
        exact_mod_cast hhi'
      · show mr (-(-(cand : Int))).toNat = true
        rw [neg_neg, Int.toNat_natCast]
        exact hmr
    · rw [if_pos hv] at hok
      cases hok

theorem generateLoop_succ_hit (xof : Bytes → Nat → Nat) (mr : Nat → Bool) (seed : Bytes)
    (bitSize fuel attempt : Nat)
    (h3 : SystemParameters.candidateOf xof seed bitSize attempt % 4 = 3)
    (hmr : mr (SystemParameters.candidateOf xof seed bitSize attempt) = true) :
    SystemParameters.generateLoop xof mr seed bitSize (fuel + 1) attempt =
      .ok ⟨-(SystemParameters.candidateOf xof seed bitSize attempt : Int)⟩ := by
  simp only [SystemParameters.generateLoop]
  rw [if_neg (by rw [h3]; exact fun hc => hc rfl), if_pos hmr]

theorem three_lt_two_pow (k : Nat) (hk : 2 ≤ k) : (3 : Nat) < 2 ^ k :=
  lt_of_lt_of_le (by norm_num) (Nat.pow_le_pow_right (by norm_num) hk)

theorem candidateOf_const_three :
    SystemParameters.candidateOf (fun _ _ => 3) [] 3072 0 = 3 + 2 ^ 3071 := by
  unfold SystemParameters.candidateOf
  dsimp only
  have h1 : 8 * ((3072 + 7) / 8) = 3072 := by norm_num
  rw [h1]
  have h2 : (3 : Nat) % 2 ^ 3072 = 3 := Nat.mod_eq_of_lt (three_lt_two_pow 3072 (by norm_num))
  rw [show (3072 : Nat) - 1 = 3071 from rfl, h2]
  unfold SystemParameters.setBit
  rw [if_neg ?_]
  · intro htb
    rw [Nat.testBit_to_div_mod] at htb
    have hdiv : (3 : Nat) / 2 ^ 3071 = 0 :=
      (Nat.div_eq_zero_iff (Nat.pos_pow_of_pos _ (by norm_num))).mpr
        (three_lt_two_pow 3071 (by norm_num))
    rw [hdiv] at htb
    simp at htb

theorem derive_const_three :
    SystemParameters.derive_trustless_discriminant (fun _ _ => [1]) (fun _ _ => [])
      (fun _ _ => 3) (fun _ => true) [1] [1] [1] =
      .ok ⟨-((3 + 2 ^ 3071 : Nat) : Int)⟩ := by
  have hver : SystemParameters.verify_vdf (fun _ _ => [1]) [1] [1] [1] = true := by decide
  unfold SystemParameters.derive_trustless_discriminant
  rw [if_neg (fun hc => hc hver)]
  unfold SystemParameters.generate_internal
  dsimp only [MIN_DISCRIMINANT_BITS]
  rw [show (10000001 : Nat) = 10000000 + 1 from rfl]
  rw [generateLoop_succ_hit (fun _ _ => 3) (fun _ => true) [] 3072 10000000 0 ?_ rfl]
  · rw [candidateOf_const_three]
  · rw [candidateOf_const_three]
    have h1 : (2 : Nat) ^ 3071 = 4 * 2 ^ 3069 := by
      rw [show (3071 : Nat) = 2 + 3069 from rfl, pow_add]
      norm_num
    rw [h1]
    exact Nat.add_mul_mod_self_left 3 4 (2 ^ 3069)

/-- Witness for C7: with empty beacon input the trustless setup fails
closed, and with the VDF oracle satisfied and the xof returning 3 the
derived discriminant is `-(2^3071 + 3)`: negative, 1 mod 4, of exact
3072-bit magnitude, and accepted by the Miller-Rabin oracle. -/
theorem c7_derive_trustless_discriminant_witness :
    (SystemParameters.derive_trustless_discriminant (fun _ _ => [1]) (fun _ _ => [])
        (fun _ _ => 3) (fun _ => true) [] [1] [1] =
      .error "FATAL: VDF Proof Invalid. The randomness source may be manipulated.") ∧
    ((⟨-((3 + 2 ^ 3071 : Nat) : Int)⟩ : SystemParameters).discriminant < 0 ∧
      (⟨-((3 + 2 ^ 3071 : Nat) : Int)⟩ : SystemParameters).discriminant % 4 = 1 ∧
      (2 : Int) ^ 3071 ≤ -(⟨-((3 + 2 ^ 3071 : Nat) : Int)⟩ : SystemParameters).discriminant ∧
      -(⟨-((3 + 2 ^ 3071 : Nat) : Int)⟩ : SystemParameters).discriminant < (2 : Int) ^ 3072 ∧
      (fun _ => true : Nat → Bool)
        ((-(⟨-((3 + 2 ^ 3071 : Nat) : Int)⟩ : SystemParameters).discriminant).toNat) = true) :=
  ⟨(c7_derive_trustless_discriminant (fun _ _ => [1]) (fun _ _ => []) (fun _ _ => 3)
      (fun _ => true) [] [1] [1]).1
    ((c7_derive_trustless_discriminant (fun _ _ => [1]) (fun _ _ => []) (fun _ _ => 3)
      (fun _ => true) [] [1] [1]).2.1 (Or.inl rfl)),
    (c7_derive_trustless_discriminant (fun _ _ => [1]) (fun _ _ => []) (fun _ _ => 3)
      (fun _ => true) [1] [1] [1]).2.2 ⟨-((3 + 2 ^ 3071 : Nat) : Int)⟩ derive_const_three⟩

theorem phase1_none_of_all_skip (xof : String → Nat → Nat) (mr : Nat → Bool)
    (input : String) (bitSize : Nat)
    (hskip : ∀ nonce, Primes.candidateOf xof input bitSize nonce % 3 = 0 ∨
      Primes.candidateOf xof input bitSize nonce % 5 = 0) :
    ∀ (fuel nonce : Nat), Primes.phase1 xof mr input bitSize fuel nonce = none := by
  intro fuel
  induction fuel with
  | zero => intro nonce; rfl
  | succ fuel ih =>
    intro nonce
    simp only [Primes.phase1]
    rw [if_pos (hskip nonce)]
    exact ih (nonce + 1)

theorem phase1_some (xof : String → Nat → Nat) (mr : Nat → Bool) (input : String)
    (bitSize : Nat) :
    ∀ (fuel nonce n : Nat), Primes.phase1 xof mr input bitSize fuel nonce = some n →
      ∃ k, n = Primes.candidateOf xof input bitSize k ∧ mr n = true := by
  intro fuel
  induction fuel with
  | zero => intro nonce n h; cases h
  | succ fuel ih =>
    intro nonce n h
    simp only [Primes.phase1] at h
    by_cases hskip : Primes.candidateOf xof input bitSize nonce % 3 = 0 ∨
        Primes.candidateOf xof input bitSize nonce % 5 = 0
    · rw [if_pos hskip] at h
      exact ih (nonce + 1) n h
    · rw [if_neg hskip] at h
      by_cases hmr : mr (Primes.candidateOf xof input bitSize nonce) = true
      · rw [if_pos hmr] at h
        cases h
        exact ⟨nonce, rfl, hmr⟩
      · rw [if_neg hmr] at h
        exact ih (nonce + 1) n h

theorem nextPrimeAux_spec : ∀ (fuel m : Nat), (∃ k, k < fuel ∧ Nat.Prime (m + k)) →
    Nat.Prime (Primes.nextPrimeAux fuel m) ∧ m ≤ Primes.nextPrimeAux fuel m := by
  intro fuel
  induction fuel with
  | zero =>
    rintro m ⟨k, hk, _⟩
    omega
  | succ fuel ih =>
    rintro m ⟨k, hk, hp⟩
    simp only [Primes.nextPrimeAux]
    by_cases hm : Nat.Prime m
    · rw [if_pos hm]
      exact ⟨hm, le_rfl⟩
    · rw [if_neg hm]
      have hk0 : k ≠ 0 := by
        rintro rfl
        exact hm (by simpa using hp)
      have h := ih (m + 1) ⟨k - 1, by omega, by
        have he : m + 1 + (k - 1) = m + k := by omega
        rw [he]; exact hp⟩
      exact ⟨h.1, le_trans (by omega) h.2⟩

/-- The modelled `next_prime` always lands on a prime strictly above its
argument: Bertrand's postulate puts a prime within the scanned window. -/
theorem next_prime_spec (n : Nat) :
    Nat.Prime (Primes.next_prime n) ∧ n < Primes.next_prime n := by
  unfold Primes.next_prime
  obtain ⟨p, hp, hlt, hle⟩ := Nat.bertrand (n + 1) (by omega)
  have h := nextPrimeAux_spec (n + 2) (n + 1) ⟨p - (n + 1), by omega, by
    have he : n + 1 + (p - (n + 1)) = p := by omega
    rw [he]; exact hp⟩
  refine ⟨h.1, ?_⟩
  have := h.2
  omega

theorem primes_candidateOf_lb (xof : String → Nat → Nat) (input : String)
    (bitSize nonce : Nat) :
    2 ^ (bitSize - 1) ≤ Primes.candidateOf xof input bitSize nonce := by
  unfold Primes.candidateOf
  exact le_trans (setBit_ge _ _) (setBit_le_self _ _)

theorem primes_candidateOf_ub (xof : String → Nat → Nat) (input : String)
    (bitSize nonce : Nat) (h8 : 8 ∣ bitSize) (h0 : 0 < bitSize) :
    Primes.candidateOf xof input bitSize nonce < 2 ^ bitSize := by
  unfold Primes.candidateOf
  dsimp only
  have hm : 8 * ((bitSize + 7) / 8) = bitSize := by omega
  rw [hm]
  apply setBit_lt _ _ _ _ h0
  apply setBit_lt _ _ _ _ (by omega)
  exact Nat.mod_lt _ (Nat.pos_pow_of_pos _ (by norm_num))

theorem fallbackCandidate_lb (xof2 : String → Nat) (input : String) (bitSize : Nat) :
    2 ^ (bitSize - 1) ≤ Primes.fallbackCandidate xof2 input bitSize := by
  unfold Primes.fallbackCandidate
  exact le_trans (setBit_ge _ _) (setBit_le_self _ _)

/-- Counterexample to C8 as stated: at the requested bit width 2, with
the xof oracle instantiated to the constant 1 (modelling a BLAKE3
output whose relevant bytes are 1), every nonce candidate is 3 and is
skipped by the small-factor sieve, so the fallback next-prime scan runs
and returns 5 — a number of 3 significant bits, not the requested 2.
The claim that the result always has exactly the requested bit width is
false; only the lower bound holds. -/
theorem c8_hash_to_prime_counterexample :
    Primes.hash_to_prime (fun _ _ => 1) (fun _ => 1) (fun _ => true) "x" 2 = .ok 5 ∧
      2 ^ (2 - 1) ≤ 5 ∧ ¬((5 : Nat) < 2 ^ 2) := by
  refine ⟨?_, by norm_num, by norm_num⟩
  unfold Primes.hash_to_prime
  rw [phase1_none_of_all_skip (fun _ _ => 1) (fun _ => true) "x" 2
    (fun nonce => Or.inl (by with_unfolding_all rfl)) 1000 0]
  rfl

/-- C8 (amended): `hash_to_prime` is total (always returns `Ok`; it is
also deterministic, being a pure function of the input and bit width);
the result is always at least `2^(bit_size - 1)`, so it has at least
the requested bit width; a result found by the phase-1 nonce search
passes the Miller-Rabin oracle and, when the requested width is a
multiple of 8, has exactly the requested bit width; when the nonce
search is exhausted the result is the next-prime fallback, which is
prime but may exceed the requested width. -/
theorem c8_hash_to_prime_total (xof : String → Nat → Nat) (xof2 : String → Nat)
    (mr : Nat → Bool) (input : String) (bitSize : Nat) (h0 : 0 < bitSize) :
    (∃ n, Primes.hash_to_prime xof xof2 mr input bitSize = .ok n) ∧
    (∀ n, Primes.hash_to_prime xof xof2 mr input bitSize = .ok n →
      2 ^ (bitSize - 1) ≤ n) ∧
    (∀ n, Primes.phase1 xof mr input bitSize 1000 0 = some n →
      Primes.hash_to_prime xof xof2 mr input bitSize = .ok n ∧ mr n = true ∧
        (8 ∣ bitSize → n < 2 ^ bitSize)) ∧
    (Primes.phase1 xof mr input bitSize 1000 0 = none →
      Primes.hash_to_prime xof xof2 mr input bitSize =
        .ok (Primes.next_prime (Primes.fallbackCandidate xof2 input bitSize)) ∧
      Nat.Prime (Primes.next_prime (Primes.fallbackCandidate xof2 input bitSize))) := by
  refine ⟨?_, ?_, ?_, ?_⟩
  · cases hp : Primes.phase1 xof mr input bitSize 1000 0 with
    | none => exact ⟨_, by unfold Primes.hash_to_prime; rw [hp]⟩
    | some p => exact ⟨p, by unfold Primes.hash_to_prime; rw [hp]⟩
  · intro n hn
    unfold Primes.hash_to_prime at hn
    cases hp : Primes.phase1 xof mr input bitSize 1000 0 with
    | none =>
      rw [hp] at hn
      cases hn
      exact le_trans (fallbackCandidate_lb xof2 input bitSize)
        (le_of_lt (next_prime_spec _).2)
    | some p =>
      rw [hp] at hn
      cases hn
      obtain ⟨k, hk, _⟩ := phase1_some xof mr input bitSize 1000 0 n hp
      rw [hk]
      exact primes_candidateOf_lb xof input bitSize k
  · intro n hn
    obtain ⟨k, hk, hmr⟩ := phase1_some xof mr input bitSize 1000 0 n hn
    refine ⟨by unfold Primes.hash_to_prime; rw [hn], hmr, fun h8 => ?_⟩
    rw [hk]
    exact primes_candidateOf_ub xof input bitSize k h8 h0
  · intro hp
    exact ⟨by unfold Primes.hash_to_prime; rw [hp], (next_prime_spec _).1⟩

/-- Witness for the amended C8: at bit width 2 with the constant-1 xof
oracle the nonce search is exhausted and the fallback returns the prime
5, above the requested width floor of 2. -/
theorem c8_hash_to_prime_total_witness :
    (∃ n, Primes.hash_to_prime (fun _ _ => 1) (fun _ => 1) (fun _ => true) "x" 2 = .ok n) ∧
    (Primes.hash_to_prime (fun _ _ => 1) (fun _ => 1) (fun _ => true) "x" 2 =
        .ok (Primes.next_prime (Primes.fallbackCandidate (fun _ => 1) "x" 2)) ∧
      Nat.Prime (Primes.next_prime (Primes.fallbackCandidate (fun _ => 1) "x" 2))) :=
  ⟨(c8_hash_to_prime_total (fun _ _ => 1) (fun _ => 1) (fun _ => true) "x" 2 (by norm_num)).1,
    (c8_hash_to_prime_total (fun _ _ => 1) (fun _ => 1) (fun _ => true) "x" 2
        (by norm_num)).2.2.2
      (phase1_none_of_all_skip (fun _ _ => 1) (fun _ => true) "x" 2
        (fun nonce => Or.inl (by with_unfolding_all rfl)) 1000 0)⟩

/-! ## Claims C1, C3, C9, C10 -/

/-- C1: `StateTransitionProof::verify` returns true exactly when the
binding check (the leaf digest recomputed from `(P = 1,
checkpoint_state)` equals the stored leaf hash), the Merkle inclusion
check against the global root, and the exact replay of `replay_ops`
from the checkpoint to `claimed_final_state` all pass; the three checks
run in this order in the definition and short-circuit to false at the
first failure, so a tampered replay op, final state, or leaf hash
falsifies the proof. -/
theorem c1_state_transition_verify_iff
    (leafHash : Int → ClassGroupElement → Hash256)
    (nodeHash : Hash256 → Hash256 → Hash256)
    (pf : StateTransitionProof) (root : Hash256) (Δ : Int) :
    StateTransitionProof.verify leafHash nodeHash pf root Δ = true ↔
      (leafHash 1 pf.checkpoint_state = pf.log_inclusion_proof.leaf_hash ∧
        pf.log_inclusion_proof.verify nodeHash root = true ∧
        StateTransitionProof.replayFold Δ pf.checkpoint_state pf.replay_ops =
          .ok pf.claimed_final_state) := by
  unfold StateTransitionProof.verify
  by_cases h1 : leafHash 1 pf.checkpoint_state = pf.log_inclusion_proof.leaf_hash
  · by_cases h2 : pf.log_inclusion_proof.verify nodeHash root = true
    · rcases hrep : StateTransitionProof.replayFold Δ pf.checkpoint_state pf.replay_ops with
        e | s
      · simp [h1, h2, hrep]
      · by_cases h3 : s = pf.claimed_final_state <;> simp [h1, h2, hrep, h3]
    · simp [h1, h2]
  · simp [h1]

/-- C3: the non-commutative `AffineTuple::compose` fails with the
overflow error whenever the combined significant bit length of the two
P factors exceeds 4096, and every successful composition is exactly the
time law `(P1*P2, Q1^P2 * Q2)` computed by the class-group engine. -/
theorem c3_affine_compose_fuse (t1 t2 : AffineTuple) (Δ : Int) :
    (MAX_CHUNK_P_BITS < significant_bits t1.p_factor + significant_bits t2.p_factor →
      t1.compose t2 Δ =
        .error "Falsified: Affine P-Factor overflow. Global accumulation is forbidden; use State Streaming instead.") ∧
    (∀ r, t1.compose t2 Δ = .ok r →
      r.p_factor = t1.p_factor * t2.p_factor ∧
      ∃ q1p2, t1.q_shift.pow t2.p_factor Δ = .ok q1p2 ∧
        q1p2.compose t2.q_shift Δ = .ok r.q_shift) := by
  constructor
  · intro h
    unfold AffineTuple.compose
    simp [h]
  · intro r hr
    unfold AffineTuple.compose at hr
    by_cases h : MAX_CHUNK_P_BITS <
        significant_bits t1.p_factor + significant_bits t2.p_factor
    · simp [h] at hr
    · simp only [h, if_neg, if_false] at hr
      rcases hp : t1.q_shift.pow t2.p_factor Δ with e | q1p2
      · rw [hp] at hr; cases hr
      · rw [hp] at hr
        dsimp only at hr
        rcases hc : q1p2.compose t2.q_shift Δ with e | newQ
        · rw [hc] at hr; cases hr
        · rw [hc] at hr
          dsimp only at hr
          cases hr
          exact ⟨rfl, q1p2, rfl, by rw [hc]⟩

/-- Witness for C3: two tuples whose P factors have 2050 significant
bits each trip the 4096-bit fuse, while composing two identity tuples
succeeds and realizes the time law. -/
theorem c3_affine_compose_fuse_witness :
    (AffineTuple.compose ⟨2 ^ 2049, ClassGroupElement.identity (-7)⟩
        ⟨2 ^ 2049, ClassGroupElement.identity (-7)⟩ (-7) =
      .error "Falsified: Affine P-Factor overflow. Global accumulation is forbidden; use State Streaming instead.") ∧
    ((AffineTuple.identity (-7)).p_factor =
        (AffineTuple.identity (-7)).p_factor * (AffineTuple.identity (-7)).p_factor ∧
      ∃ q1p2, (AffineTuple.identity (-7)).q_shift.pow (AffineTuple.identity (-7)).p_factor (-7) =
          .ok q1p2 ∧
        q1p2.compose (AffineTuple.identity (-7)).q_shift (-7) =
          .ok (AffineTuple.identity (-7)).q_shift) := by
  constructor
  · refine (c3_affine_compose_fuse _ _ _).1 ?_
    simp only [significant_bits_two_pow, MAX_CHUNK_P_BITS]
    norm_num
  · refine (c3_affine_compose_fuse (AffineTuple.identity (-7)) (AffineTuple.identity (-7))
      (-7)).2 (AffineTuple.identity (-7)) ?_
    decide

/-- C9: `TimeSegmentTree::generate_witness` rejects any index at or
beyond the recorded history length with a security error and produces
no witness path (the function does not mutate the tree: it is a pure
reader), while for an in-range index whose recursive aggregation (all
the non-commutative compositions it performs) succeeds it returns the
collected witness path. -/
theorem c9_witness_index_bounds (t : TimeSegmentTree) (index : Nat) (Δ : Int) :
    (t.leaves.length ≤ index →
      t.generate_witness index Δ =
        .error "Security Halt: Witness index out of bounds. Evolution cannot be extrapolated.") ∧
    (index < t.leaves.length →
      ∀ agg w, TimeSegmentTree.genWitnessRec Δ t.leaves.length t.leaves index 0 = .ok (agg, w) →
        t.generate_witness index Δ = .ok w) := by
  constructor
  · intro h
    unfold TimeSegmentTree.generate_witness
    simp [h]
  · intro h agg w hrec
    unfold TimeSegmentTree.generate_witness
    rw [if_neg (by omega), hrec]

/-- Witness for C9: on a two-leaf history, index 5 is rejected with the
out-of-bounds error and index 0 yields the sibling path. -/
theorem c9_witness_index_bounds_witness :
    (TimeSegmentTree.generate_witness ⟨[AffineTuple.identity (-7), AffineTuple.identity (-7)]⟩ 5
        (-7) =
      .error "Security Halt: Witness index out of bounds. Evolution cannot be extrapolated.") ∧
    (TimeSegmentTree.generate_witness ⟨[AffineTuple.identity (-7), AffineTuple.identity (-7)]⟩ 0
        (-7) =
      .ok [(AffineTuple.identity (-7), false)]) := by
  constructor
  · exact (c9_witness_index_bounds ⟨[AffineTuple.identity (-7), AffineTuple.identity (-7)]⟩ 5
      (-7)).1 (by decide)
  · exact (c9_witness_index_bounds ⟨[AffineTuple.identity (-7), AffineTuple.identity (-7)]⟩ 0
      (-7)).2 (by decide) (AffineTuple.identity (-7)) [(AffineTuple.identity (-7), false)]
      (by decide)

/-- C10: `AffineTuple::commutative_merge` applies no P-factor ceiling:
whenever the plain group composition of the two shifts succeeds, the
merge returns `(P1*P2, Q1*Q2)` unconditionally, with no bit-length
check on the P factors at all (so the 4096-bit fuse guards only the
non-commutative `compose`). -/
theorem c10_commutative_merge_unfused (t1 t2 : AffineTuple) (Δ : Int)
    (q : ClassGroupElement) (h : t1.q_shift.compose t2.q_shift Δ = .ok q) :
    t1.commutative_merge t2 Δ = .ok ⟨t1.p_factor * t2.p_factor, q⟩ := by
  unfold AffineTuple.commutative_merge
  rw [h]

/-- Witness for C10: a tuple whose P factor alone has 4097 significant
bits (beyond the fuse that guards `compose`) still merges successfully. -/
theorem c10_commutative_merge_unfused_witness :
    MAX_CHUNK_P_BITS <
        significant_bits ((2 : Int) ^ 4096) + significant_bits (1 : Int) ∧
      AffineTuple.commutative_merge ⟨2 ^ 4096, ClassGroupElement.identity (-7)⟩
          ⟨1, ClassGroupElement.identity (-7)⟩ (-7) =
        .ok ⟨2 ^ 4096 * 1, ClassGroupElement.identity (-7)⟩ := by
  constructor
  · have h1 : significant_bits (1 : Int) = 1 := by decide
    simp only [significant_bits_two_pow, h1, MAX_CHUNK_P_BITS]
    norm_num
  · exact c10_commutative_merge_unfused ⟨2 ^ 4096, ClassGroupElement.identity (-7)⟩
      ⟨1, ClassGroupElement.identity (-7)⟩ (-7) (ClassGroupElement.identity (-7)) (by decide)

end Evolver
